import Mathlib

/-!
Verification of the vendor-database merge engine of the `etalon` repository
(`scripts/merge-all-vendors.py`), together with the normalizer it uses.

The Python code is shallowly embedded: JSON vendor records become the
`RawVendor` structure (fields that may be absent are `Option`s, the
source-specific auxiliary passenger fields become the `extra` association
list, and the nested `_import_metadata` object becomes a dedicated optional
field), Python dicts become insertion-ordered association lists, and each of
the three merge passes becomes a fold over the corresponding input list.
-/

namespace EtalonMerge

/-- `VALID_CATEGORIES` from `merge-all-vendors.py` (lines 17-22). -/
def VALID_CATEGORIES : List String :=
  ["analytics", "advertising", "social", "cdn", "payments", "chat",
   "heatmaps", "ab_testing", "error_tracking", "tag_manager", "consent",
   "video", "fonts", "security", "push", "forms", "referral", "booking",
   "maps", "web3", "b2b_intelligence", "email_marketing", "other"]

/-- The `cleanup_fields` list of `merge_vendors` (lines 208-209). -/
def cleanup_fields : List String :=
  ["source", "prevalence", "fingerprinting", "cookies",
   "sites", "disconnect_category", "website"]

/-- A vendor record as read from JSON, before `normalize_vendor` has run:
every required field may be absent.  `extra` carries the source-specific
auxiliary passenger fields (`source`, `prevalence`, `privacy_policy`, ...)
as a key/value association list; `import_metadata` models the nested
`_import_metadata` object when present. -/
structure RawVendor where
  id : Option String
  domains : Option (List String)
  name : Option String
  company : Option String
  category : Option String
  gdpr_compliant : Option Bool
  risk_score : Option Int
  tier : Option String
  extra : List (String × String)
  import_metadata : Option (List (String × String))
deriving DecidableEq

/-- A vendor record after `normalize_vendor`: all required fields present.
`tier` stays optional because `normalize_vendor` does not default it (the
merge engine sets it before normalizing). -/
structure Vendor where
  id : String
  domains : List String
  name : String
  company : String
  category : String
  gdpr_compliant : Bool
  risk_score : Int
  tier : Option String
  extra : List (String × String)
  import_metadata : Option (List (String × String))
deriving DecidableEq

/-- Python's per-character `str.lower` on basic latin letters
(`Char.toLower` is exactly that function). -/
def strLower (s : String) : String := ⟨s.data.map Char.toLower⟩

/-- Code-point lexicographic comparison of character lists: exactly the
comparison Python uses on strings. -/
def charListLt : List Char → List Char → Bool
  | [], [] => false
  | [], _ :: _ => true
  | _ :: _, [] => false
  | a :: as, b :: bs =>
    if a.toNat < b.toNat then true
    else if b.toNat < a.toNat then false
    else charListLt as bs

/-- Python's `<` on strings. -/
def strLt (a b : String) : Bool := charListLt a.data b.data

/-- Python's `<=` on strings. -/
def strLe (a b : String) : Bool := !(strLt b a)

/-- `normalize_vendor` (lines 65-86): fill defaults with `setdefault`,
clamp `risk_score` with `max(1, min(10, _))`, replace an invalid category
by `"other"`, lowercase all domains dropping falsy (empty) entries. -/
def normalize_vendor (v : RawVendor) : Vendor :=
  let id := v.id.getD "unknown"
  let domains := v.domains.getD []
  let name := v.name.getD id
  let company := v.company.getD "Unknown"
  let category0 := v.category.getD "other"
  let gdpr := v.gdpr_compliant.getD false
  let rs := max 1 (min 10 (v.risk_score.getD 5))
  let category := if category0 ∈ VALID_CATEGORIES then category0 else "other"
  { id := id
    domains := (domains.filter (fun d => d ≠ "")).map strLower
    name := name
    company := company
    category := category
    gdpr_compliant := gdpr
    risk_score := rs
    tier := v.tier
    extra := v.extra
    import_metadata := v.import_metadata }

/-- `v['tier'] = 'premium'` (lines 96-97). -/
def markPremium (v : RawVendor) : RawVendor := { v with tier := some "premium" }

/-- `v.setdefault('tier', 'standard')` (lines 98-101): keeps an existing
tier, defaults an absent one to `"standard"`. -/
def markStd (v : RawVendor) : RawVendor :=
  { v with tier := some (v.tier.getD "standard") }

/-- Lookup in a Python dict modelled as an association list
(first binding of the key wins; by construction keys are unique). -/
def alookup {α : Type} : List (String × α) → String → Option α
  | [], _ => none
  | p :: l, k => if p.1 = k then some p.2 else alookup l k

/-- `m[k] = v` on a Python dict: replace the binding if the key is present
(keeping its position), otherwise append a new binding. -/
def aset {α : Type} : List (String × α) → String → α → List (String × α)
  | [], k, v => [(k, v)]
  | p :: l, k, v => if p.1 = k then (k, v) :: l else p :: aset l k v

/-- The two dicts built by `merge_vendors` (lines 104-105):
`vendors_by_id` and `domain_to_id`. -/
structure MergeState where
  vendors_by_id : List (String × Vendor)
  domain_to_id : List (String × String)
deriving DecidableEq

/-- `sorted(list(set(xs)))` on a list of strings. -/
def sortedSet (xs : List String) : List String :=
  List.insertionSort (fun a b => strLe a b = true) xs.dedup

/-- Register a list of domains under an owner id in `domain_to_id`. -/
def regDomains (m : List (String × String)) (doms : List String) (i : String) :
    List (String × String) :=
  doms.foldl (fun m d => aset m d i) m

/-- Pass 1 body (lines 108-113) on an already-normalized record. -/
def premiumCore (st : MergeState) (v : Vendor) : MergeState :=
  { vendors_by_id := aset st.vendors_by_id v.id v
    domain_to_id := regDomains st.domain_to_id v.domains v.id }

/-- Pass 1 body (lines 108-113): index one premium vendor. -/
def insertPremium (st : MergeState) (v0 : RawVendor) : MergeState :=
  premiumCore st (normalize_vendor (markPremium v0))

/-- The premium-collision scan of pass 2 (lines 124-130): first domain of
`doms` whose owner's tier is `premium`; the scan skips non-premium owners.
(The owner id always names a key of `vendors_by_id`; the `none` fallback
for the owner lookup is unreachable.) -/
def findPremiumMatch (st : MergeState) : List String → Option String
  | [] => none
  | d :: rest =>
    match alookup st.domain_to_id d with
    | some eid =>
      match alookup st.vendors_by_id eid with
      | some ev =>
        if ev.tier = some "premium" then some eid else findPremiumMatch st rest
      | none => findPremiumMatch st rest
    | none => findPremiumMatch st rest

/-- The general collision scan (lines 144-148 and 179-183): owner of the
first domain already claimed in `domain_to_id`. -/
def findFirstMatch (st : MergeState) : List String → Option String
  | [] => none
  | d :: rest =>
    match alookup st.domain_to_id d with
    | some i => some i
    | none => findFirstMatch st rest

/-- The enrichment body (lines 132-141, also lines 185-193): merge the
candidate domains not yet stored on the matched record into it, registering
ownership of exactly those new domains; a candidate bringing nothing new
leaves the state unchanged. -/
def enrich (st : MergeState) (pid : String) (existing : Vendor)
    (doms : List String) : MergeState :=
  if (doms.filter (fun d => existing.domains.contains d = false)).isEmpty then st
  else
    { vendors_by_id := aset st.vendors_by_id pid
        { existing with
          domains := sortedSet (existing.domains ++
            doms.filter (fun d => existing.domains.contains d = false)) }
      domain_to_id := regDomains st.domain_to_id
        (doms.filter (fun d => existing.domains.contains d = false)) pid }

/-- The general-merge body of pass 2 (lines 150-157): union the candidate
domains into the matched record and register all of them (re-assigning
ownership of domains that already had another owner). -/
def mergeAll (st : MergeState) (mid : String) (existing : Vendor)
    (doms : List String) : MergeState :=
  { vendors_by_id := aset st.vendors_by_id mid
      { existing with domains := sortedSet (existing.domains ++ doms) }
    domain_to_id := regDomains st.domain_to_id doms mid }

/-- The id a new record is stored under (lines 160-164 and 196-199): the
candidate id, renamed with the source-tag suffix when it is already taken. -/
def insertedId (sfx : String) (st : MergeState) (v : Vendor) : String :=
  if (alookup st.vendors_by_id v.id).isSome then v.id ++ sfx else v.id

/-- The new-record body (lines 158-168 and 194-203): store the candidate
under `insertedId` and register all of its domains. -/
def insertNew (sfx : String) (st : MergeState) (v : Vendor) : MergeState :=
  { vendors_by_id := aset st.vendors_by_id (insertedId sfx st v)
      { v with id := insertedId sfx st v }
    domain_to_id := regDomains st.domain_to_id v.domains (insertedId sfx st v) }

/-- The general-collision part of pass 2 (lines 143-168): `matched_id` is
the owner of the first claimed domain, and `if matched_id:` is a Python
truthiness test — both `None` (no match) and the empty-string id are falsy
and fall through to the new-record branch. -/
def ddgGeneral (st : MergeState) (v : Vendor) : MergeState :=
  match findFirstMatch st v.domains with
  | some mid =>
    if mid = "" then insertNew "-ddg" st v
    else
      match alookup st.vendors_by_id mid with
      | some existing => mergeAll st mid existing v.domains
      | none => st
  | none => insertNew "-ddg" st v

/-- Pass 2 body (lines 120-168) on an already-normalized record.  Premium
enrichment first; otherwise the general-collision branch.  The guard
`if matched_premium_id:` (line 132) is a Python truthiness test, so a
matched premium owner whose id is the empty string is falsy and the
candidate falls through to the general branch.  (As in `findPremiumMatch`,
the `none` owner-lookup fallbacks are unreachable.) -/
def ddgCore (st : MergeState) (v : Vendor) : MergeState :=
  match findPremiumMatch st v.domains with
  | some pid =>
    if pid = "" then ddgGeneral st v
    else
      match alookup st.vendors_by_id pid with
      | some existing => enrich st pid existing v.domains
      | none => st
  | none => ddgGeneral st v

/-- Pass 2 body (lines 120-168): one DuckDuckGo candidate. -/
def ddgStep (st : MergeState) (v0 : RawVendor) : MergeState :=
  ddgCore st (normalize_vendor (markStd v0))

/-- Pass 3 body (lines 175-203) on an already-normalized record.  There is
no premium-collision scan here: the candidate merges into the owner of its
first claimed domain whatever that owner's tier, registering only the newly
added domains; otherwise it is inserted, renaming with `-dc`.  As in pass
2, `if matched_id:` (line 185) is falsy for an empty-string owner id. -/
def dcCore (st : MergeState) (v : Vendor) : MergeState :=
  match findFirstMatch st v.domains with
  | some mid =>
    if mid = "" then insertNew "-dc" st v
    else
      match alookup st.vendors_by_id mid with
      | some existing => enrich st mid existing v.domains
      | none => st
  | none => insertNew "-dc" st v

/-- Pass 3 body (lines 175-203): one Disconnect candidate. -/
def dcStep (st : MergeState) (v0 : RawVendor) : MergeState :=
  dcCore st (normalize_vendor (markStd v0))

/-- Post-processing of one record (lines 211-219): pop every
`cleanup_fields` entry out of the record's top level into the nested
`_import_metadata` object, which is (re)written only when at least one
such field was present. -/
def cleanup (v : Vendor) : Vendor :=
  let metadata := cleanup_fields.filterMap
    (fun f => (alookup v.extra f).map (fun x => (f, x)))
  { v with
    extra := v.extra.filter (fun p => (cleanup_fields.contains p.1) = false)
    import_metadata := if metadata.isEmpty then v.import_metadata else some metadata }

/-- `result.sort(key=lambda v: v['id'])` (line 222). -/
def sortById (l : List Vendor) : List Vendor :=
  List.insertionSort (fun u v => strLe u.id v.id = true) l

/-- The state after the three passes of `merge_vendors` (lines 104-205). -/
def mergeState (premium duckduckgo disconnect : List RawVendor) : MergeState :=
  let st0 : MergeState := { vendors_by_id := [], domain_to_id := [] }
  let st1 := premium.foldl insertPremium st0
  let st2 := duckduckgo.foldl ddgStep st1
  disconnect.foldl dcStep st2

/-- `merge_vendors` (lines 89-224): the three passes followed by cleanup
and the deterministic sort by id. -/
def merge_vendors (premium duckduckgo disconnect : List RawVendor) : List Vendor :=
  sortById
    (((mergeState premium duckduckgo disconnect).vendors_by_id.map
      (fun p => p.2)).map cleanup)

/-- Read a normalized record back as a raw record (feeding the engine's
own JSON output back in as an input list). -/
def toRaw (v : Vendor) : RawVendor :=
  { id := some v.id
    domains := some v.domains
    name := some v.name
    company := some v.company
    category := some v.category
    gdpr_compliant := some v.gdpr_compliant
    risk_score := some v.risk_score
    tier := v.tier
    extra := v.extra
    import_metadata := v.import_metadata }

/-! ### Input conditions and invariants

The following definitions are not part of the Python program: they state
conditions on inputs (used as hypotheses of theorems) and invariants of the
merge state (used in proofs). -/

/-- The owners (with multiplicity) currently registered for a list of
domains. -/
def ownersOf (st : MergeState) (doms : List String) : List String :=
  doms.filterMap (alookup st.domain_to_id)

/-- All elements of the list are equal. -/
def allEqual (l : List String) : Bool :=
  match l with
  | [] => true
  | x :: xs => xs.all (fun y => y == x)

/-- Input condition for one premium record: none of its domains is already
owned (the spec's precondition that the premium input carries no duplicate
domains). -/
def okPremium (st : MergeState) (v0 : RawVendor) : Bool :=
  (normalize_vendor (markPremium v0)).domains.all
    (fun d => (alookup st.domain_to_id d).isNone)

/-- Input condition for one secondary-source candidate: its domains do not
straddle two different registered owners at the moment it is processed, and
no matched owner has the empty-string id (which Python's truthiness guards
treat as no match at all). -/
def okSecondary (st : MergeState) (v0 : RawVendor) : Bool :=
  allEqual (ownersOf st (normalize_vendor (markStd v0)).domains) &&
    (ownersOf st (normalize_vendor (markStd v0)).domains).all (fun i => i ≠ "")

/-- Run a pass, checking the per-candidate input condition at each step. -/
def foldCheck (step : MergeState → RawVendor → MergeState)
    (ok : MergeState → RawVendor → Bool) : MergeState → List RawVendor → Bool
  | _, [] => true
  | st, v :: vs => ok st v && foldCheck step ok (step st v) vs

/-- All per-candidate input conditions hold throughout the whole merge. -/
def mergeOK (premium duckduckgo disconnect : List RawVendor) : Bool :=
  let st0 : MergeState := { vendors_by_id := [], domain_to_id := [] }
  let st1 := premium.foldl insertPremium st0
  let st2 := duckduckgo.foldl ddgStep st1
  foldCheck insertPremium okPremium st0 premium &&
    foldCheck ddgStep okSecondary st1 duckduckgo &&
    foldCheck dcStep okSecondary st2 disconnect

/-- Shape invariant of every normalized record: clamped risk score, valid
category, and lowercase non-empty domain strings. -/
def goodVendor (v : Vendor) : Prop :=
  1 ≤ v.risk_score ∧ v.risk_score ≤ 10 ∧ v.category ∈ VALID_CATEGORIES ∧
    ∀ d ∈ v.domains, d ≠ "" ∧ strLower d = d

/-- Shape invariant of the `vendors_by_id` dict: keys are pairwise
distinct, every stored record's `id` equals its key, and every stored
record is normalized. -/
def WFmap (l : List (String × Vendor)) : Prop :=
  (l.map Prod.fst).Nodup ∧ (∀ p ∈ l, (p.2).id = p.1) ∧ ∀ p ∈ l, goodVendor p.2

/-- Ownership invariant: every domain of every stored record is registered
to that record's key in `domain_to_id`. -/
def Owns (st : MergeState) : Prop :=
  ∀ i v, alookup st.vendors_by_id i = some v →
    ∀ d ∈ v.domains, alookup st.domain_to_id d = some i

/-- A candidate of a secondary source avoids being stored (directly or via
the rename suffix `sfx`) under the given id. -/
def avoidsId (sfx : String) (cid : String) (c : RawVendor) : Bool :=
  ((normalize_vendor (markStd c)).id ≠ cid) &&
    ((normalize_vendor (markStd c)).id ++ sfx ≠ cid)

/-! ### Association-list lemmas -/

theorem alookup_aset_self {α : Type} (l : List (String × α)) (k : String) (v : α) :
    alookup (aset l k v) k = some v := by
  induction l with
  | nil => simp [aset, alookup]
  | cons p t ih =>
    by_cases h : p.1 = k
    · simp [aset, h, alookup]
    · simp [aset, h, alookup, ih]

theorem alookup_aset_ne {α : Type} (l : List (String × α)) {k k' : String} (v : α)
    (h : k' ≠ k) : alookup (aset l k v) k' = alookup l k' := by
  have hne : ¬(k = k') := fun e => h e.symm
  induction l with
  | nil => simp [aset, alookup, hne]
  | cons p t ih =>
    by_cases hp : p.1 = k
    · simp [aset, hp, alookup, hne]
    · simp [aset, hp, alookup, ih]

theorem alookup_aset {α : Type} (l : List (String × α)) (k k' : String) (v : α) :
    alookup (aset l k v) k' = if k' = k then some v else alookup l k' := by
  by_cases h : k' = k
  · subst h; simp [alookup_aset_self]
  · simp [h, alookup_aset_ne l v h]

theorem mem_aset {α : Type} {l : List (String × α)} {k : String} {v : α}
    {p : String × α} (h : p ∈ aset l k v) : p = (k, v) ∨ p ∈ l := by
  induction l with
  | nil => simpa [aset] using h
  | cons q t ih =>
    by_cases hq : q.1 = k
    · simp only [aset, hq, if_true] at h
      rcases List.mem_cons.mp h with h1 | h1
      · exact Or.inl h1
      · exact Or.inr (List.mem_cons_of_mem _ h1)
    · simp only [aset, hq, if_false] at h
      rcases List.mem_cons.mp h with h1 | h1
      · exact Or.inr (h1 ▸ List.mem_cons_self _ _)
      · rcases ih h1 with h2 | h2
        · exact Or.inl h2
        · exact Or.inr (List.mem_cons_of_mem _ h2)

theorem aset_of_none {α : Type} {l : List (String × α)} {k : String} (v : α)
    (h : alookup l k = none) : aset l k v = l ++ [(k, v)] := by
  induction l with
  | nil => simp [aset]
  | cons p t ih =>
    by_cases hp : p.1 = k
    · simp [alookup, hp] at h
    · simp only [alookup, hp, if_false] at h
      simp [aset, hp, ih h]

theorem keys_aset_of_isSome {α : Type} {l : List (String × α)} {k : String} (v : α)
    (h : (alookup l k).isSome) : (aset l k v).map Prod.fst = l.map Prod.fst := by
  induction l with
  | nil => simp [alookup] at h
  | cons p t ih =>
    by_cases hp : p.1 = k
    · simp [aset, hp]
    · simp only [alookup, hp, if_false] at h
      simp [aset, hp, ih h]

theorem keys_aset_of_none {α : Type} {l : List (String × α)} {k : String} (v : α)
    (h : alookup l k = none) : (aset l k v).map Prod.fst = l.map Prod.fst ++ [k] := by
  rw [aset_of_none v h]; simp

theorem alookup_eq_none_iff {α : Type} (l : List (String × α)) (k : String) :
    alookup l k = none ↔ k ∉ l.map Prod.fst := by
  induction l with
  | nil => simp [alookup]
  | cons p t ih =>
    by_cases hp : p.1 = k
    · simp [alookup, hp]
    · have hne : ¬(k = p.1) := fun e => hp e.symm
      simp [alookup, hp, ih, hne]

theorem alookup_mem {α : Type} {l : List (String × α)} {k : String} {v : α}
    (h : alookup l k = some v) : (k, v) ∈ l := by
  induction l with
  | nil => simp [alookup] at h
  | cons p t ih =>
    by_cases hp : p.1 = k
    · simp only [alookup, hp, if_true, Option.some.injEq] at h
      subst h
      exact List.mem_cons.mpr (Or.inl (by rw [← hp]))
    · simp only [alookup, hp, if_false] at h
      exact List.mem_cons_of_mem _ (ih h)

theorem mem_alookup {α : Type} {l : List (String × α)} {k : String} {v : α}
    (hnd : (l.map Prod.fst).Nodup) (h : (k, v) ∈ l) : alookup l k = some v := by
  induction l with
  | nil => simp at h
  | cons p t ih =>
    simp only [List.map_cons, List.nodup_cons] at hnd
    rcases List.mem_cons.mp h with h1 | h1
    · subst h1; simp [alookup]
    · have hk : p.1 ≠ k := by
        intro hpk
        exact hnd.1 (hpk ▸ (List.mem_map.mpr ⟨(k, v), h1, rfl⟩))
      simp [alookup, hk, ih hnd.2 h1]

theorem alookup_regDomains (m : List (String × String)) (doms : List String)
    (i x : String) :
    alookup (regDomains m doms i) x =
      if x ∈ doms then some i else alookup m x := by
  induction doms generalizing m with
  | nil => simp [regDomains]
  | cons d rest ih =>
    simp only [regDomains, List.foldl_cons] at *
    rw [ih]
    by_cases hx : x ∈ rest
    · simp [hx, List.mem_cons]
    · by_cases hxd : x = d
      · simp [hx, hxd, alookup_aset_self]
      · simp [hx, hxd, alookup_aset_ne m i hxd]

/-! ### Scan lemmas -/

theorem findFirstMatch_eq_none_iff (st : MergeState) (doms : List String) :
    findFirstMatch st doms = none ↔ ∀ d ∈ doms, alookup st.domain_to_id d = none := by
  induction doms with
  | nil => simp [findFirstMatch]
  | cons d rest ih =>
    cases hd : alookup st.domain_to_id d with
    | some i => simp [findFirstMatch, hd]
    | none => simp [findFirstMatch, hd, ih]

theorem findFirstMatch_some {st : MergeState} {doms : List String} {i : String}
    (h : findFirstMatch st doms = some i) :
    ∃ d ∈ doms, alookup st.domain_to_id d = some i := by
  induction doms with
  | nil => simp [findFirstMatch] at h
  | cons d rest ih =>
    cases hd : alookup st.domain_to_id d with
    | some j =>
      simp only [findFirstMatch, hd, Option.some.injEq] at h
      exact ⟨d, List.mem_cons_self _ _, h ▸ hd⟩
    | none =>
      simp only [findFirstMatch, hd] at h
      obtain ⟨d', hm, ho⟩ := ih h
      exact ⟨d', List.mem_cons_of_mem _ hm, ho⟩

theorem findFirstMatch_first (st : MergeState) (pre post : List String)
    {d i : String} (hpre : ∀ x ∈ pre, alookup st.domain_to_id x = none)
    (hd : alookup st.domain_to_id d = some i) :
    findFirstMatch st (pre ++ d :: post) = some i := by
  induction pre with
  | nil => simp [findFirstMatch, hd]
  | cons x rest ih =>
    have hx := hpre x (List.mem_cons_self _ _)
    simp only [List.cons_append, findFirstMatch, hx]
    exact ih (fun y hy => hpre y (List.mem_cons_of_mem _ hy))

theorem findPremiumMatch_some {st : MergeState} {doms : List String} {i : String}
    (h : findPremiumMatch st doms = some i) :
    (∃ d ∈ doms, alookup st.domain_to_id d = some i) ∧
      ∃ ev, alookup st.vendors_by_id i = some ev ∧ ev.tier = some "premium" := by
  induction doms with
  | nil => simp [findPremiumMatch] at h
  | cons d rest ih =>
    cases hd : alookup st.domain_to_id d with
    | some j =>
      cases hv : alookup st.vendors_by_id j with
      | some ev =>
        by_cases ht : ev.tier = some "premium"
        · simp only [findPremiumMatch, hd, hv, ht, if_true, Option.some.injEq] at h
          subst h
          exact ⟨⟨d, List.mem_cons_self _ _, hd⟩, ev, hv, ht⟩
        · simp only [findPremiumMatch, hd, hv, ht, if_false] at h
          obtain ⟨⟨d', hm, ho⟩, hev⟩ := ih h
          exact ⟨⟨d', List.mem_cons_of_mem _ hm, ho⟩, hev⟩
      | none =>
        simp only [findPremiumMatch, hd, hv] at h
        obtain ⟨⟨d', hm, ho⟩, hev⟩ := ih h
        exact ⟨⟨d', List.mem_cons_of_mem _ hm, ho⟩, hev⟩
    | none =>
      simp only [findPremiumMatch, hd] at h
      obtain ⟨⟨d', hm, ho⟩, hev⟩ := ih h
      exact ⟨⟨d', List.mem_cons_of_mem _ hm, ho⟩, hev⟩

theorem findPremiumMatch_none {st : MergeState} {doms : List String}
    (h : findPremiumMatch st doms = none) :
    ∀ d ∈ doms, ∀ i, alookup st.domain_to_id d = some i →
      ∀ ev, alookup st.vendors_by_id i = some ev → ev.tier ≠ some "premium" := by
  induction doms with
  | nil => simp
  | cons d rest ih =>
    intro x hx i hdi ev hev ht
    cases hd : alookup st.domain_to_id d with
    | some j =>
      cases hv : alookup st.vendors_by_id j with
      | some ew =>
        by_cases hjt : ew.tier = some "premium"
        · simp [findPremiumMatch, hd, hv, hjt] at h
        · simp only [findPremiumMatch, hd, hv, hjt, if_false] at h
          rcases List.mem_cons.mp hx with h1 | h1
          · subst h1
            rw [hdi] at hd
            cases hd
            rw [hev] at hv
            cases hv
            exact hjt ht
          · exact ih h x h1 i hdi ev hev ht
      | none =>
        simp only [findPremiumMatch, hd, hv] at h
        rcases List.mem_cons.mp hx with h1 | h1
        · subst h1
          rw [hdi] at hd
          cases hd
          rw [hev] at hv
          cases hv
        · exact ih h x h1 i hdi ev hev ht
    | none =>
      simp only [findPremiumMatch, hd] at h
      rcases List.mem_cons.mp hx with h1 | h1
      · subst h1
        rw [hdi] at hd
        cases hd
      · exact ih h x h1 i hdi ev hev ht

theorem findPremiumMatch_isSome {st : MergeState} {doms : List String}
    {d i : String} {ev : Vendor} (hd : d ∈ doms)
    (ho : alookup st.domain_to_id d = some i)
    (hv : alookup st.vendors_by_id i = some ev) (ht : ev.tier = some "premium") :
    (findPremiumMatch st doms).isSome := by
  cases hm : findPremiumMatch st doms with
  | some j => simp
  | none => exact absurd ht (findPremiumMatch_none hm d hd i ho ev hv)

theorem mem_ownersOf {st : MergeState} {doms : List String} {i : String} :
    i ∈ ownersOf st doms ↔ ∃ d ∈ doms, alookup st.domain_to_id d = some i := by
  simp [ownersOf, List.mem_filterMap]

theorem allEqual_spec {l : List String} (h : allEqual l = true) :
    ∀ x ∈ l, ∀ y ∈ l, x = y := by
  cases l with
  | nil => simp
  | cons a t =>
    simp only [allEqual, List.all_eq_true, beq_iff_eq] at h
    intro x hx y hy
    rcases List.mem_cons.mp hx with h1 | h1 <;> rcases List.mem_cons.mp hy with h2 | h2
    · rw [h1, h2]
    · rw [h1, h y h2]
    · rw [h2, h x h1]
    · rw [h x h1, h y h2]

theorem ownersOf_isEmpty_iff (st : MergeState) (doms : List String) :
    (ownersOf st doms).isEmpty = true ↔
      ∀ d ∈ doms, alookup st.domain_to_id d = none := by
  rw [List.isEmpty_iff]
  constructor
  · intro h d hd
    cases ho : alookup st.domain_to_id d with
    | none => rfl
    | some i =>
      have : i ∈ ownersOf st doms := mem_ownersOf.mpr ⟨d, hd, ho⟩
      rw [h] at this
      simp at this
  · intro h
    cases he : ownersOf st doms with
    | nil => rfl
    | cons i t =>
      have : i ∈ ownersOf st doms := by rw [he]; exact List.mem_cons_self _ _
      obtain ⟨d, hd, ho⟩ := mem_ownersOf.mp this
      rw [h d hd] at ho
      cases ho

/-! ### Sorting and string lemmas -/

theorem mem_sortedSet {x : String} {l : List String} : x ∈ sortedSet l ↔ x ∈ l := by
  rw [sortedSet, (List.perm_insertionSort _ _).mem_iff, List.mem_dedup]

theorem sortById_perm (l : List Vendor) : List.Perm (sortById l) l :=
  List.perm_insertionSort _ l

theorem charListLt_irrefl : ∀ a : List Char, charListLt a a = false := by
  intro a
  induction a with
  | nil => rfl
  | cons x t ih => simp [charListLt, ih]

theorem charListLt_trans : ∀ {a b c : List Char}, charListLt a b = true →
    charListLt b c = true → charListLt a c = true := by
  intro a
  induction a with
  | nil =>
    intro b c hab hbc
    cases b with
    | nil => simp [charListLt] at hab
    | cons y bs =>
      cases c with
      | nil => simp [charListLt] at hbc
      | cons z cs => rfl
  | cons x as ih =>
    intro b c hab hbc
    cases b with
    | nil => simp [charListLt] at hab
    | cons y bs =>
      cases c with
      | nil => simp [charListLt] at hbc
      | cons z cs =>
        simp only [charListLt] at hab hbc ⊢
        by_cases hxy : x.toNat < y.toNat
        · by_cases hyz : y.toNat < z.toNat
          · simp [Nat.lt_trans hxy hyz]
          · by_cases hzy : z.toNat < y.toNat
            · simp [hyz, hzy] at hbc
            · have hxz : x.toNat < z.toNat := by omega
              simp [hxz]
        · by_cases hyx : y.toNat < x.toNat
          · simp [hxy, hyx] at hab
          · simp only [hxy, hyx, if_false] at hab
            by_cases hyz : y.toNat < z.toNat
            · have hxz : x.toNat < z.toNat := by omega
              simp [hxz]
            · by_cases hzy : z.toNat < y.toNat
              · simp [hyz, hzy] at hbc
              · simp only [hyz, hzy, if_false] at hbc
                have hxz : ¬x.toNat < z.toNat := by omega
                have hzx : ¬z.toNat < x.toNat := by omega
                simp only [hxz, hzx, if_false]
                exact ih hab hbc

theorem charListLt_conn : ∀ {a b : List Char}, charListLt a b = false →
    charListLt b a = false → a = b := by
  intro a
  induction a with
  | nil =>
    intro b hab _
    cases b with
    | nil => rfl
    | cons y bs => simp [charListLt] at hab
  | cons x as ih =>
    intro b hab hba
    cases b with
    | nil => simp [charListLt] at hba
    | cons y bs =>
      simp only [charListLt] at hab hba
      by_cases hxy : x.toNat < y.toNat
      · simp [hxy] at hab
      · by_cases hyx : y.toNat < x.toNat
        · simp [hyx] at hba
        · simp only [hxy, hyx, if_false] at hab hba
          have hn : x.toNat = y.toNat := by omega
          have hx : x = y := Char.eq_of_val_eq (UInt32.ext hn)
          rw [hx, ih hab hba]

theorem strLe_total (a b : String) : strLe a b = true ∨ strLe b a = true := by
  unfold strLe strLt
  by_cases h : charListLt b.data a.data = true
  · right
    cases hc : charListLt a.data b.data with
    | false => simp
    | true =>
      exfalso
      have := charListLt_trans h hc
      rw [charListLt_irrefl] at this
      cases this
  · left
    simp [h]

theorem strLe_trans {a b c : String} (hab : strLe a b = true)
    (hbc : strLe b c = true) : strLe a c = true := by
  unfold strLe strLt at hab hbc ⊢
  simp only [Bool.not_eq_true'] at hab hbc ⊢
  cases hca : charListLt c.data a.data with
  | false => rfl
  | true =>
    exfalso
    by_cases hcb : charListLt c.data b.data = true
    · rw [hcb] at hbc; cases hbc
    · by_cases hbc2 : charListLt b.data c.data = true
      · have := charListLt_trans hbc2 hca
        rw [this] at hab
        cases hab
      · have heq := charListLt_conn (Bool.not_eq_true _ ▸ hbc2 : charListLt b.data c.data = false)
          (Bool.not_eq_true _ ▸ hcb : charListLt c.data b.data = false)
        rw [← heq] at hca
        rw [hca] at hab
        cases hab

theorem strLe_of_eq {a b : String} (h : a = b) : strLe a b = true := by
  subst h
  unfold strLe strLt
  simp [charListLt_irrefl]

instance : IsTotal Vendor (fun u v => strLe u.id v.id = true) :=
  ⟨fun a b => strLe_total a.id b.id⟩

instance : IsTrans Vendor (fun u v => strLe u.id v.id = true) :=
  ⟨fun _ _ _ hab hbc => strLe_trans hab hbc⟩

theorem sortById_sorted (l : List Vendor) :
    List.Sorted (fun u v => strLe u.id v.id = true) (sortById l) :=
  List.sorted_insertionSort _ l

theorem sortById_of_sorted {l : List Vendor}
    (h : List.Sorted (fun u v => strLe u.id v.id = true) l) : sortById l = l :=
  List.Sorted.insertionSort_eq h

theorem char_toLower_toLower (c : Char) :
    Char.toLower (Char.toLower c) = Char.toLower c := by
  unfold Char.toLower
  by_cases h : c.toNat ≥ 65 ∧ c.toNat ≤ 90
  · rw [if_pos h]
    have hval : (Char.ofNat (c.toNat + 32)).toNat = c.toNat + 32 := by
      have hv : (c.toNat + 32).isValidChar := Or.inl (by omega)
      rw [Char.ofNat, dif_pos hv]
      rfl
    rw [if_neg (by omega : ¬((Char.ofNat (c.toNat + 32)).toNat ≥ 65 ∧
      (Char.ofNat (c.toNat + 32)).toNat ≤ 90))]
  · rw [if_neg h, if_neg h]

theorem strLower_strLower (s : String) : strLower (strLower s) = strLower s := by
  unfold strLower
  simp only [List.map_map]
  exact congrArg String.mk
    (List.map_congr_left (fun c _ => char_toLower_toLower c))

theorem strLower_ne_empty {s : String} (h : s ≠ "") : strLower s ≠ "" := by
  intro he
  apply h
  have hd : (strLower s).data = s.data.map Char.toLower := rfl
  rw [he] at hd
  have : s.data = [] := by
    cases hs : s.data with
    | nil => rfl
    | cons c t => rw [hs] at hd; simp at hd
  cases s
  simp_all

/-! ### Projection lemmas for `normalize_vendor` and `cleanup` -/

theorem normalize_id (v : RawVendor) :
    (normalize_vendor v).id = v.id.getD "unknown" := rfl

theorem normalize_domains (v : RawVendor) :
    (normalize_vendor v).domains =
      ((v.domains.getD []).filter (fun d => d ≠ "")).map strLower := rfl

theorem normalize_name (v : RawVendor) :
    (normalize_vendor v).name = v.name.getD (v.id.getD "unknown") := rfl

theorem normalize_company (v : RawVendor) :
    (normalize_vendor v).company = v.company.getD "Unknown" := rfl

theorem normalize_category (v : RawVendor) :
    (normalize_vendor v).category =
      (if v.category.getD "other" ∈ VALID_CATEGORIES then v.category.getD "other"
       else "other") := rfl

theorem normalize_gdpr (v : RawVendor) :
    (normalize_vendor v).gdpr_compliant = v.gdpr_compliant.getD false := rfl

theorem normalize_risk (v : RawVendor) :
    (normalize_vendor v).risk_score = max 1 (min 10 (v.risk_score.getD 5)) := rfl

theorem normalize_tier (v : RawVendor) : (normalize_vendor v).tier = v.tier := rfl

theorem normalize_extra (v : RawVendor) : (normalize_vendor v).extra = v.extra := rfl

theorem normalize_meta (v : RawVendor) :
    (normalize_vendor v).import_metadata = v.import_metadata := rfl

theorem cleanup_id (v : Vendor) : (cleanup v).id = v.id := rfl

theorem cleanup_domains (v : Vendor) : (cleanup v).domains = v.domains := rfl

theorem cleanup_name (v : Vendor) : (cleanup v).name = v.name := rfl

theorem cleanup_company (v : Vendor) : (cleanup v).company = v.company := rfl

theorem cleanup_category (v : Vendor) : (cleanup v).category = v.category := rfl

theorem cleanup_gdpr (v : Vendor) : (cleanup v).gdpr_compliant = v.gdpr_compliant := rfl

theorem cleanup_risk (v : Vendor) : (cleanup v).risk_score = v.risk_score := rfl

theorem cleanup_tier (v : Vendor) : (cleanup v).tier = v.tier := rfl

theorem cleanup_extra (v : Vendor) :
    (cleanup v).extra = v.extra.filter (fun p => (cleanup_fields.contains p.1) = false) := rfl

/-! ### `goodVendor` and `WFmap` preservation -/

theorem goodVendor_normalize (v : RawVendor) : goodVendor (normalize_vendor v) := by
  refine ⟨?_, ?_, ?_, ?_⟩
  · rw [normalize_risk]; exact le_max_left _ _
  · rw [normalize_risk]; exact max_le (by norm_num) (min_le_left _ _)
  · rw [normalize_category]
    split
    · assumption
    · decide
  · intro d hd
    rw [normalize_domains] at hd
    obtain ⟨d0, hd0, rfl⟩ := List.mem_map.mp hd
    have hne : d0 ≠ "" := by
      have := (List.mem_filter.mp hd0).2
      simpa using this
    exact ⟨strLower_ne_empty hne, strLower_strLower d0⟩

theorem goodVendor_set_domains {v : Vendor} {ds : List String} (h : goodVendor v)
    (hds : ∀ d ∈ ds, d ≠ "" ∧ strLower d = d) : goodVendor { v with domains := ds } :=
  ⟨h.1, h.2.1, h.2.2.1, hds⟩

theorem goodVendor_set_id {v : Vendor} (h : goodVendor v) (i : String) :
    goodVendor { v with id := i } :=
  ⟨h.1, h.2.1, h.2.2.1, h.2.2.2⟩

theorem good_domains_sortedSet {P : String → Prop} {xs ys : List String}
    (hx : ∀ d ∈ xs, P d) (hy : ∀ d ∈ ys, P d) :
    ∀ d ∈ sortedSet (xs ++ ys), P d := by
  intro d hd
  rcases List.mem_append.mp (mem_sortedSet.mp hd) with h | h
  · exact hx d h
  · exact hy d h

theorem mem_of_mem_filter_domains {v : Vendor} {q : String → Bool} {d : String}
    (h : d ∈ v.domains.filter q) : d ∈ v.domains :=
  List.mem_of_mem_filter h

theorem WFmap_aset {l : List (String × Vendor)} {k : String} {v : Vendor}
    (h : WFmap l) (hid : v.id = k) (hg : goodVendor v) : WFmap (aset l k v) := by
  refine ⟨?_, ?_, ?_⟩
  · cases hk : alookup l k with
    | some w =>
      rw [keys_aset_of_isSome v (by rw [hk]; rfl)]
      exact h.1
    | none =>
      rw [keys_aset_of_none v hk]
      have hkn : k ∉ l.map Prod.fst := (alookup_eq_none_iff l k).mp hk
      simp [List.nodup_append, h.1, hkn]
  · intro p hp
    rcases mem_aset hp with h1 | h1
    · rw [h1]; exact hid
    · exact h.2.1 _ h1
  · intro p hp
    rcases mem_aset hp with h1 | h1
    · rw [h1]; exact hg
    · exact h.2.2 _ h1

theorem WFmap_premiumCore {st : MergeState} {v : Vendor}
    (h : WFmap st.vendors_by_id) (hg : goodVendor v) :
    WFmap (premiumCore st v).vendors_by_id :=
  WFmap_aset h rfl hg

theorem WFmap_enrich {st : MergeState} {pid : String} {existing : Vendor}
    {doms : List String} (h : WFmap st.vendors_by_id)
    (hex : alookup st.vendors_by_id pid = some existing)
    (hdoms : ∀ d ∈ doms, d ≠ "" ∧ strLower d = d) :
    WFmap (enrich st pid existing doms).vendors_by_id := by
  unfold enrich
  split
  · exact h
  · have hmem := alookup_mem hex
    have hide : existing.id = pid := h.2.1 _ hmem
    have hge : goodVendor existing := h.2.2 _ hmem
    refine WFmap_aset h hide ?_
    exact goodVendor_set_domains hge
      (good_domains_sortedSet hge.2.2.2
        (fun d hd => hdoms d (List.mem_of_mem_filter hd)))

theorem WFmap_mergeAll {st : MergeState} {mid : String} {existing : Vendor}
    {doms : List String} (h : WFmap st.vendors_by_id)
    (hex : alookup st.vendors_by_id mid = some existing)
    (hdoms : ∀ d ∈ doms, d ≠ "" ∧ strLower d = d) :
    WFmap (mergeAll st mid existing doms).vendors_by_id := by
  have hmem := alookup_mem hex
  have hide : existing.id = mid := h.2.1 _ hmem
  have hge : goodVendor existing := h.2.2 _ hmem
  refine WFmap_aset h hide ?_
  exact goodVendor_set_domains hge (good_domains_sortedSet hge.2.2.2 hdoms)

theorem WFmap_insertNew {st : MergeState} {v : Vendor} (sfx : String)
    (h : WFmap st.vendors_by_id) (hg : goodVendor v) :
    WFmap (insertNew sfx st v).vendors_by_id :=
  WFmap_aset h rfl (goodVendor_set_id hg _)

theorem WFmap_ddgGeneral {st : MergeState} {v : Vendor}
    (h : WFmap st.vendors_by_id) (hg : goodVendor v) :
    WFmap (ddgGeneral st v).vendors_by_id := by
  unfold ddgGeneral
  cases hff : findFirstMatch st v.domains with
  | some mid =>
    dsimp only
    by_cases hmid : mid = ""
    · rw [if_pos hmid]
      exact WFmap_insertNew _ h hg
    · rw [if_neg hmid]
      cases hex : alookup st.vendors_by_id mid with
      | some existing => exact WFmap_mergeAll h hex hg.2.2.2
      | none => exact h
  | none => exact WFmap_insertNew _ h hg

theorem WFmap_ddgCore {st : MergeState} {v : Vendor}
    (h : WFmap st.vendors_by_id) (hg : goodVendor v) :
    WFmap (ddgCore st v).vendors_by_id := by
  unfold ddgCore
  cases hpm : findPremiumMatch st v.domains with
  | some pid =>
    dsimp only
    by_cases hpid : pid = ""
    · rw [if_pos hpid]
      exact WFmap_ddgGeneral h hg
    · rw [if_neg hpid]
      cases hex : alookup st.vendors_by_id pid with
      | some existing => exact WFmap_enrich h hex hg.2.2.2
      | none => exact h
  | none => exact WFmap_ddgGeneral h hg

theorem WFmap_dcCore {st : MergeState} {v : Vendor}
    (h : WFmap st.vendors_by_id) (hg : goodVendor v) :
    WFmap (dcCore st v).vendors_by_id := by
  unfold dcCore
  cases hff : findFirstMatch st v.domains with
  | some mid =>
    dsimp only
    by_cases hmid : mid = ""
    · rw [if_pos hmid]
      exact WFmap_insertNew _ h hg
    · rw [if_neg hmid]
      cases hex : alookup st.vendors_by_id mid with
      | some existing => exact WFmap_enrich h hex hg.2.2.2
      | none => exact h
  | none => exact WFmap_insertNew _ h hg

theorem WFmap_foldl {step : MergeState → RawVendor → MergeState}
    (hstep : ∀ st v0, WFmap st.vendors_by_id → WFmap (step st v0).vendors_by_id)
    (l : List RawVendor) :
    ∀ st, WFmap st.vendors_by_id → WFmap ((l.foldl step st).vendors_by_id) := by
  induction l with
  | nil => intro st h; exact h
  | cons v0 rest ih => intro st h; exact ih _ (hstep st v0 h)

theorem WFmap_mergeState (p d dc : List RawVendor) :
    WFmap (mergeState p d dc).vendors_by_id := by
  unfold mergeState
  refine WFmap_foldl (fun st v0 h => WFmap_dcCore h (goodVendor_normalize _)) dc _ ?_
  refine WFmap_foldl (fun st v0 h => WFmap_ddgCore h (goodVendor_normalize _)) d _ ?_
  refine WFmap_foldl (fun st v0 h => WFmap_premiumCore h (goodVendor_normalize _)) p _ ?_
  exact ⟨List.nodup_nil, fun p hp => absurd hp (List.not_mem_nil p),
    fun p hp => absurd hp (List.not_mem_nil p)⟩

/-! ### Ownership invariant preservation -/

theorem Owns_premiumCore {st : MergeState} {v : Vendor} (hO : Owns st)
    (hUnowned : ∀ d ∈ v.domains, alookup st.domain_to_id d = none) :
    Owns (premiumCore st v) := by
  intro i w hw d hd
  unfold premiumCore at hw ⊢
  dsimp at hw ⊢
  rw [alookup_aset] at hw
  rw [alookup_regDomains]
  by_cases hi : i = v.id
  · rw [if_pos hi] at hw
    have hwv : w = v := by injection hw with h; exact h.symm
    subst hwv
    rw [if_pos hd]
    rw [hi]
  · rw [if_neg hi] at hw
    have hold := hO i w hw d hd
    have hdn : d ∉ v.domains := by
      intro hdv
      rw [hUnowned d hdv] at hold
      cases hold
    rw [if_neg hdn]
    exact hold

theorem Owns_enrich {st : MergeState} {pid : String} {existing : Vendor}
    {doms : List String} (hO : Owns st)
    (hex : alookup st.vendors_by_id pid = some existing)
    (hOwn : ∀ d ∈ doms, ∀ j, alookup st.domain_to_id d = some j → j = pid) :
    Owns (enrich st pid existing doms) := by
  unfold enrich
  split
  · exact hO
  · intro i w hw d hd
    dsimp at hw ⊢
    rw [alookup_aset] at hw
    rw [alookup_regDomains]
    by_cases hi : i = pid
    · rw [if_pos hi] at hw
      have hwv : w = { existing with
          domains := sortedSet (existing.domains ++
            doms.filter (fun d => existing.domains.contains d = false)) } := by
        injection hw with h; exact h.symm
      subst hwv
      simp only at hd
      rcases List.mem_append.mp (mem_sortedSet.mp hd) with he | hn
      · have hold := hO pid existing hex d he
        split
        · rw [hi]
        · rw [hi]; exact hold
      · rw [if_pos hn, hi]
    · rw [if_neg hi] at hw
      have hold := hO i w hw d hd
      have hdn : d ∉ doms.filter (fun d => existing.domains.contains d = false) := by
        intro hdf
        exact hi (hOwn d (List.mem_of_mem_filter hdf) i hold)
      rw [if_neg hdn]
      exact hold

theorem Owns_mergeAll {st : MergeState} {mid : String} {existing : Vendor}
    {doms : List String} (hO : Owns st)
    (hex : alookup st.vendors_by_id mid = some existing)
    (hOwn : ∀ d ∈ doms, ∀ j, alookup st.domain_to_id d = some j → j = mid) :
    Owns (mergeAll st mid existing doms) := by
  intro i w hw d hd
  unfold mergeAll at hw ⊢
  dsimp at hw ⊢
  rw [alookup_aset] at hw
  rw [alookup_regDomains]
  by_cases hi : i = mid
  · rw [if_pos hi] at hw
    have hwv : w = { existing with domains := sortedSet (existing.domains ++ doms) } := by
      injection hw with h; exact h.symm
    subst hwv
    simp only at hd
    by_cases hdd : d ∈ doms
    · rw [if_pos hdd, hi]
    · rcases List.mem_append.mp (mem_sortedSet.mp hd) with he | hn
      · have hold := hO mid existing hex d he
        rw [if_neg hdd, hi]
        exact hold
      · exact absurd hn hdd
  · rw [if_neg hi] at hw
    have hold := hO i w hw d hd
    have hdn : d ∉ doms := fun hdd => hi (hOwn d hdd i hold)
    rw [if_neg hdn]
    exact hold

theorem Owns_insertNew {st : MergeState} {v : Vendor} {sfx : String} (hO : Owns st)
    (hUnowned : ∀ d ∈ v.domains, alookup st.domain_to_id d = none) :
    Owns (insertNew sfx st v) := by
  intro i w hw d hd
  unfold insertNew at hw ⊢
  dsimp at hw ⊢
  rw [alookup_aset] at hw
  rw [alookup_regDomains]
  by_cases hi : i = insertedId sfx st v
  · rw [if_pos hi] at hw
    have hwv : w = { v with id := insertedId sfx st v } := by
      injection hw with h; exact h.symm
    subst hwv
    simp only at hd
    rw [if_pos hd, hi]
  · rw [if_neg hi] at hw
    have hold := hO i w hw d hd
    have hdn : d ∉ v.domains := by
      intro hdv
      rw [hUnowned d hdv] at hold
      cases hold
    rw [if_neg hdn]
    exact hold

theorem okPremium_spec {st : MergeState} {v0 : RawVendor}
    (h : okPremium st v0 = true) :
    ∀ d ∈ (normalize_vendor (markPremium v0)).domains,
      alookup st.domain_to_id d = none := by
  unfold okPremium at h
  intro d hd
  exact Option.isNone_iff_eq_none.mp (List.all_eq_true.mp h d hd)

theorem okSecondary_allEqual {st : MergeState} {v0 : RawVendor}
    (h : okSecondary st v0 = true) :
    ∀ x ∈ ownersOf st (normalize_vendor (markStd v0)).domains,
      ∀ y ∈ ownersOf st (normalize_vendor (markStd v0)).domains, x = y := by
  unfold okSecondary at h
  rw [Bool.and_eq_true] at h
  exact allEqual_spec h.1

theorem okSecondary_ne_empty {st : MergeState} {v0 : RawVendor}
    (h : okSecondary st v0 = true) :
    ∀ x ∈ ownersOf st (normalize_vendor (markStd v0)).domains, x ≠ "" := by
  unfold okSecondary at h
  rw [Bool.and_eq_true] at h
  intro x hx
  have := List.all_eq_true.mp h.2 x hx
  simpa using this

theorem Owns_ddgGeneral {st : MergeState} {v0 : RawVendor} (hO : Owns st)
    (hok : okSecondary st v0 = true) :
    Owns (ddgGeneral st (normalize_vendor (markStd v0))) := by
  unfold ddgGeneral
  cases hff : findFirstMatch st (normalize_vendor (markStd v0)).domains with
  | some mid =>
    dsimp only
    obtain ⟨dm, hdm, hom⟩ := findFirstMatch_some hff
    have hmne : mid ≠ "" :=
      okSecondary_ne_empty hok mid (mem_ownersOf.mpr ⟨dm, hdm, hom⟩)
    rw [if_neg hmne]
    cases hex : alookup st.vendors_by_id mid with
    | some existing =>
      refine Owns_mergeAll hO hex ?_
      intro d hd j hj
      exact okSecondary_allEqual hok j (mem_ownersOf.mpr ⟨d, hd, hj⟩)
        mid (mem_ownersOf.mpr ⟨dm, hdm, hom⟩)
    | none => exact hO
  | none =>
    exact Owns_insertNew hO ((findFirstMatch_eq_none_iff st _).mp hff)

theorem Owns_ddgStep {st : MergeState} {v0 : RawVendor} (hO : Owns st)
    (hok : okSecondary st v0 = true) : Owns (ddgStep st v0) := by
  unfold ddgStep ddgCore
  cases hpm : findPremiumMatch st (normalize_vendor (markStd v0)).domains with
  | some pid =>
    dsimp only
    obtain ⟨⟨dp, hdp, hop⟩, _⟩ := findPremiumMatch_some hpm
    have hpne : pid ≠ "" :=
      okSecondary_ne_empty hok pid (mem_ownersOf.mpr ⟨dp, hdp, hop⟩)
    rw [if_neg hpne]
    cases hex : alookup st.vendors_by_id pid with
    | some existing =>
      refine Owns_enrich hO hex ?_
      intro d hd j hj
      exact okSecondary_allEqual hok j (mem_ownersOf.mpr ⟨d, hd, hj⟩)
        pid (mem_ownersOf.mpr ⟨dp, hdp, hop⟩)
    | none => exact hO
  | none => exact Owns_ddgGeneral hO hok

theorem Owns_dcStep {st : MergeState} {v0 : RawVendor} (hO : Owns st)
    (hok : okSecondary st v0 = true) : Owns (dcStep st v0) := by
  unfold dcStep dcCore
  cases hff : findFirstMatch st (normalize_vendor (markStd v0)).domains with
  | some mid =>
    dsimp only
    obtain ⟨dm, hdm, hom⟩ := findFirstMatch_some hff
    have hmne : mid ≠ "" :=
      okSecondary_ne_empty hok mid (mem_ownersOf.mpr ⟨dm, hdm, hom⟩)
    rw [if_neg hmne]
    cases hex : alookup st.vendors_by_id mid with
    | some existing =>
      refine Owns_enrich hO hex ?_
      intro d hd j hj
      exact okSecondary_allEqual hok j (mem_ownersOf.mpr ⟨d, hd, hj⟩)
        mid (mem_ownersOf.mpr ⟨dm, hdm, hom⟩)
    | none => exact hO
  | none =>
    exact Owns_insertNew hO ((findFirstMatch_eq_none_iff st _).mp hff)

theorem Owns_insertPremium {st : MergeState} {v0 : RawVendor} (hO : Owns st)
    (hok : okPremium st v0 = true) : Owns (insertPremium st v0) := by
  unfold insertPremium
  exact Owns_premiumCore hO (okPremium_spec hok)

theorem foldCheck_preserve {P : MergeState → Prop}
    {step : MergeState → RawVendor → MergeState}
    {ok : MergeState → RawVendor → Bool}
    (hstep : ∀ st v0, P st → ok st v0 = true → P (step st v0)) :
    ∀ (l : List RawVendor) (st : MergeState), P st →
      foldCheck step ok st l = true → P (l.foldl step st) := by
  intro l
  induction l with
  | nil => intro st h _; exact h
  | cons v0 rest ih =>
    intro st h hc
    unfold foldCheck at hc
    rw [Bool.and_eq_true] at hc
    exact ih _ (hstep st v0 h hc.1) hc.2

theorem Owns_mergeState {p d dc : List RawVendor} (h : mergeOK p d dc = true) :
    Owns (mergeState p d dc) := by
  unfold mergeOK at h
  rw [Bool.and_eq_true, Bool.and_eq_true] at h
  obtain ⟨⟨h1, h2⟩, h3⟩ := h
  have hO0 : Owns { vendors_by_id := [], domain_to_id := [] } := by
    intro i w hw
    cases hw
  unfold mergeState
  exact foldCheck_preserve (fun st v0 hP hok => Owns_dcStep hP hok) dc _
    (foldCheck_preserve (fun st v0 hP hok => Owns_ddgStep hP hok) d _
      (foldCheck_preserve (fun st v0 hP hok => Owns_insertPremium hP hok) p _ hO0 h1) h2) h3

theorem countP_le_one_of_unique {α : Type} {P : α → Bool} :
    ∀ {l : List α}, l.Nodup →
      (∀ a ∈ l, ∀ b ∈ l, P a = true → P b = true → a = b) → l.countP P ≤ 1 := by
  intro l
  induction l with
  | nil => intro _ _; simp
  | cons x t ih =>
    intro hnd h
    rw [List.countP_cons]
    by_cases hx : P x = true
    · have ht : t.countP P = 0 := by
        rw [List.countP_eq_zero]
        intro b hb hPb
        have hbx : b = x :=
          h b (List.mem_cons_of_mem _ hb) x (List.mem_cons_self _ _) hPb hx
        exact (List.nodup_cons.mp hnd).1 (hbx ▸ hb)
      simp [ht, hx]
    · have hx0 : (if P x then 1 else 0) = 0 := by simp [hx]
      rw [hx0, Nat.add_zero]
      exact ih (List.nodup_cons.mp hnd).2
        (fun a ha b hb => h a (List.mem_cons_of_mem _ ha) b (List.mem_cons_of_mem _ hb))

/-- A convenient builder for input records carrying only an id and a
domain list (all other JSON fields absent). -/
def rv (i : String) (ds : List String) : RawVendor :=
  { id := some i, domains := some ds, name := none, company := none,
    category := none, gdpr_compliant := none, risk_score := none,
    tier := none, extra := [], import_metadata := none }

theorem alookup_append {α : Type} (l₁ l₂ : List (String × α)) (k : String) :
    alookup (l₁ ++ l₂) k =
      match alookup l₁ k with
      | some v => some v
      | none => alookup l₂ k := by
  induction l₁ with
  | nil => simp [alookup]
  | cons p t ih =>
    by_cases hp : p.1 = k
    · simp [alookup, hp]
    · simp [alookup, hp, ih]

theorem alookup_isSome_of_mem {α : Type} {l : List (String × α)} {p : String × α}
    (h : p ∈ l) : (alookup l p.1).isSome := by
  induction l with
  | nil => simp at h
  | cons q t ih =>
    by_cases hq : q.1 = p.1
    · simp [alookup, hq]
    · rcases List.mem_cons.mp h with h1 | h1
      · rw [h1] at hq; exact absurd rfl hq
      · simp [alookup, hq, ih h1]

/-- Membership in the merge output: exactly the cleaned-up stored records. -/
theorem mem_merge_vendors {p d dc : List RawVendor} {v : Vendor} :
    v ∈ merge_vendors p d dc ↔
      ∃ q ∈ (mergeState p d dc).vendors_by_id, v = cleanup q.2 := by
  unfold merge_vendors
  rw [(sortById_perm _).mem_iff, List.map_map, List.mem_map]
  constructor
  · rintro ⟨q, hq, rfl⟩
    exact ⟨q, hq, rfl⟩
  · rintro ⟨q, hq, rfl⟩
    exact ⟨q, hq, rfl⟩

theorem goodVendor_cleanup {v : Vendor} (h : goodVendor v) :
    goodVendor (cleanup v) := by
  refine ⟨?_, ?_, ?_, ?_⟩
  · rw [cleanup_risk]; exact h.1
  · rw [cleanup_risk]; exact h.2.1
  · rw [cleanup_category]; exact h.2.2.1
  · rw [cleanup_domains]; exact h.2.2.2

/-- Every record in the merge output satisfies the normalized-shape
invariant. -/
theorem merge_good {p d dc : List RawVendor} {v : Vendor}
    (h : v ∈ merge_vendors p d dc) : goodVendor v := by
  obtain ⟨q, hq, rfl⟩ := mem_merge_vendors.mp h
  exact goodVendor_cleanup ((WFmap_mergeState p d dc).2.2 q hq)

theorem alookup_filter_cleanup {l : List (String × String)} {f : String}
    (hf : f ∈ cleanup_fields) :
    alookup (l.filter (fun p => (cleanup_fields.contains p.1) = false)) f = none := by
  have hc : cleanup_fields.contains f = true := List.elem_eq_true_of_mem hf
  induction l with
  | nil => rfl
  | cons p t ih =>
    cases hp : cleanup_fields.contains p.1 with
    | false =>
      rw [List.filter_cons_of_pos (by rw [hp]; decide)]
      have hne : p.1 ≠ f := by
        intro he
        rw [he, hc] at hp
        cases hp
      simp only [alookup, hne, if_false]
      exact ih
    | true =>
      rw [List.filter_cons_of_neg (by rw [hp]; decide)]
      exact ih

/-- Every record in the merge output carries none of the `cleanup_fields`
at its top level. -/
theorem merge_extra_clean {p d dc : List RawVendor} {v : Vendor}
    (h : v ∈ merge_vendors p d dc) {f : String} (hf : f ∈ cleanup_fields) :
    alookup v.extra f = none := by
  obtain ⟨q, hq, rfl⟩ := mem_merge_vendors.mp h
  rw [cleanup_extra]
  exact alookup_filter_cleanup hf

/-- The id values of the merge output are pairwise distinct. -/
theorem merge_ids_nodup (p d dc : List RawVendor) :
    ((merge_vendors p d dc).map (fun v => v.id)).Nodup := by
  have hWF := WFmap_mergeState p d dc
  have hperm : List.Perm ((merge_vendors p d dc).map (fun v => v.id))
      ((((mergeState p d dc).vendors_by_id.map (fun q => q.2)).map cleanup).map
        (fun v => v.id)) :=
    (sortById_perm _).map _
  rw [hperm.nodup_iff, List.map_map, List.map_map]
  have heq : ((mergeState p d dc).vendors_by_id.map
      (((fun v => v.id) ∘ cleanup) ∘ (fun q => q.2))) =
      (mergeState p d dc).vendors_by_id.map Prod.fst := by
    apply List.map_congr_left
    intro q hq
    simp only [Function.comp]
    rw [cleanup_id]
    exact hWF.2.1 q hq
  rw [heq]
  exact hWF.1

/-! ### The claims -/

/-- C1 (counterexample): the claim that in the output of `merge_vendors`
no domain is shared by two output records fails when a candidate record's
domain set overlaps two different pre-existing owners: the candidate is
merged into the owner of its first domain and its remaining domains are
re-registered there, but they are not removed from the other owner's
stored domain list, so the domain `b.com` ends up in two output records. -/
theorem claim_C1_counterexample :
    ∃ u ∈ merge_vendors []
      [rv "r1" ["a.com"], rv "r2" ["b.com"], rv "v" ["a.com", "b.com"]] [],
    ∃ w ∈ merge_vendors []
      [rv "r1" ["a.com"], rv "r2" ["b.com"], rv "v" ["a.com", "b.com"]] [],
      "b.com" ∈ u.domains ∧ "b.com" ∈ w.domains ∧ u ≠ w := by decide

/-- C1 (amended): provided no premium record carries an already-owned
domain and no secondary candidate's domain set straddles two different
registered owners at the moment it is processed (`mergeOK`), every domain
appears in the domains list of at most one output record of
`merge_vendors`. -/
theorem claim_C1 (p d dc : List RawVendor) (h : mergeOK p d dc = true)
    (dom : String) :
    (merge_vendors p d dc).countP (fun v => decide (dom ∈ v.domains)) ≤ 1 := by
  have hWF := WFmap_mergeState p d dc
  have hO := Owns_mergeState h
  unfold merge_vendors
  rw [(sortById_perm _).countP_eq, List.map_map, List.countP_map]
  refine countP_le_one_of_unique (List.Nodup.of_map _ hWF.1) ?_
  rintro ⟨ka, va⟩ ha ⟨kb, vb⟩ hb hpa hpb
  simp only [Function.comp, decide_eq_true_eq, cleanup_domains] at hpa hpb
  have hla : alookup (mergeState p d dc).vendors_by_id ka = some va :=
    mem_alookup hWF.1 ha
  have hlb : alookup (mergeState p d dc).vendors_by_id kb = some vb :=
    mem_alookup hWF.1 hb
  have h1 := hO ka va hla dom hpa
  have h2 := hO kb vb hlb dom hpb
  have hk : ka = kb := by
    rw [h1] at h2
    injection h2
  subst hk
  rw [hla] at hlb
  injection hlb with hv
  rw [hv]

/-- C1 (witness): a run satisfying `mergeOK` in which a DuckDuckGo
candidate enriches a premium record, instantiating the amended claim at
the domain they share. -/
theorem claim_C1_witness :
    mergeOK [rv "p" ["p.com"]] [rv "q" ["p.com", "q.com"]] [] = true ∧
      (merge_vendors [rv "p" ["p.com"]] [rv "q" ["p.com", "q.com"]] []).countP
        (fun v => decide ("p.com" ∈ v.domains)) ≤ 1 :=
  ⟨by decide, claim_C1 _ _ _ (by decide) "p.com"⟩

/-- C8 (counterexample): the claim that every output record's domains list
is non-empty and duplicate-free fails: a candidate with no domains (or with
a duplicated domain) that collides with nothing is inserted as-is, because
`normalize_vendor` neither rejects empty domain lists nor deduplicates —
only merged records get the sorted-set treatment. -/
theorem claim_C8_counterexample :
    (∃ v ∈ merge_vendors [] [rv "x" ["a.com", "a.com"], rv "y" []] [],
        v.domains = []) ∧
      ∃ v ∈ merge_vendors [] [rv "x" ["a.com", "a.com"], rv "y" []] [],
        v.domains = ["a.com", "a.com"] := by decide

/-- C8 (amended): every domain string stored on any output record of
`merge_vendors` is a non-empty lowercase string (fixed by `strLower`);
however the domains list of a record may be empty and may contain
duplicates. -/
theorem claim_C8 (p d dc : List RawVendor) (v : Vendor)
    (hv : v ∈ merge_vendors p d dc) (dom : String) (hd : dom ∈ v.domains) :
    dom ≠ "" ∧ strLower dom = dom :=
  (merge_good hv).2.2.2 dom hd

/-- C8 (witness): the lowercased domain of a premium record, read off the
concrete output of a one-record merge. -/
theorem claim_C8_witness : "a.com" ≠ "" ∧ strLower "a.com" = "a.com" :=
  claim_C8 [rv "x" ["A.com"]] [] []
    { id := "x", domains := ["a.com"], name := "x", company := "Unknown",
      category := "other", gdpr_compliant := false, risk_score := 5,
      tier := some "premium", extra := [], import_metadata := none }
    (by decide) "a.com" (by decide)

theorem cleanup_meta (v : Vendor) :
    (cleanup v).import_metadata =
      (if (cleanup_fields.filterMap
          (fun f => (alookup v.extra f).map (fun x => (f, x)))).isEmpty then
        v.import_metadata
      else some (cleanup_fields.filterMap
        (fun f => (alookup v.extra f).map (fun x => (f, x))))) := rfl

theorem alookup_filterMap_extra :
    ∀ (fs : List String) (extra : List (String × String)) (f x : String),
      f ∈ fs → alookup extra f = some x →
      alookup (fs.filterMap (fun g => (alookup extra g).map (fun y => (g, y)))) f =
        some x := by
  intro fs
  induction fs with
  | nil => intro _ _ _ hf _; simp at hf
  | cons g t ih =>
    intro extra f x hf hx
    by_cases hgf : g = f
    · subst hgf
      rw [List.filterMap_cons_some (by rw [hx]; rfl)]
      simp [alookup]
    · have h1 : f ∈ t := by
        rcases List.mem_cons.mp hf with h1 | h1
        · exact absurd h1.symm hgf
        · exact h1
      cases hg : alookup extra g with
      | none =>
        rw [List.filterMap_cons_none (by rw [hg]; rfl)]
        exact ih extra f x h1 hx
      | some y =>
        rw [List.filterMap_cons_some (by rw [hg]; rfl)]
        simp only [alookup, hgf, if_false]
        exact ih extra f x h1 hx

/-- C9 (counterexample): the claim that every source-only auxiliary field
— including the privacy-policy URL — is stripped from the record top level
fails: `privacy_policy` (emitted by the DuckDuckGo adapter) is not in
`cleanup_fields`, so it stays at the top level of the output record while
`source` is relocated. -/
theorem claim_C9_counterexample :
    ∃ v ∈ merge_vendors []
      [{ rv "x" ["x.com"] with
          extra := [("privacy_policy", "https://x/privacy"), ("source", "ddg")] }] [],
      alookup v.extra "privacy_policy" = some "https://x/privacy" := by decide

/-- C9 (amended): post-processing strips exactly the seven fields of
`cleanup_fields` (`source`, `prevalence`, `fingerprinting`, `cookies`,
`sites`, `disconnect_category`, `website` — not the privacy-policy URL)
out of every output record's top level; each stripped field is relocated
with its value into the nested import-metadata object, and for a record
with no pre-existing metadata that object is present iff at least one such
field existed. -/
theorem claim_C9 :
    (∀ (p d dc : List RawVendor), ∀ v ∈ merge_vendors p d dc,
        ∀ f ∈ cleanup_fields, alookup v.extra f = none) ∧
      (∀ (w : Vendor), ∀ f ∈ cleanup_fields, ∀ x, alookup w.extra f = some x →
        ∃ m, (cleanup w).import_metadata = some m ∧ alookup m f = some x) ∧
      ∀ (w : Vendor), w.import_metadata = none →
        (((cleanup w).import_metadata).isSome ↔
          ∃ f ∈ cleanup_fields, (alookup w.extra f).isSome) := by
  refine ⟨?_, ?_, ?_⟩
  · intro p d dc v hv f hf
    exact merge_extra_clean hv hf
  · intro w f hf x hx
    refine ⟨cleanup_fields.filterMap
      (fun g => (alookup w.extra g).map (fun y => (g, y))), ?_, ?_⟩
    · rw [cleanup_meta]
      cases hM : cleanup_fields.filterMap
          (fun g => (alookup w.extra g).map (fun y => (g, y))) with
      | nil =>
        have := alookup_filterMap_extra cleanup_fields w.extra f x hf hx
        rw [hM] at this
        cases this
      | cons e rest => rfl
    · exact alookup_filterMap_extra cleanup_fields w.extra f x hf hx
  · intro w hw
    rw [cleanup_meta, hw]
    cases hM : cleanup_fields.filterMap
        (fun g => (alookup w.extra g).map (fun y => (g, y))) with
    | nil =>
      have hred : (if ([] : List (String × String)).isEmpty = true then
          (none : Option (List (String × String))) else some []) = none := rfl
      rw [hred]
      constructor
      · intro h; simp at h
      · rintro ⟨f, hf, hs⟩
        have h0 := List.filterMap_eq_nil_iff.mp hM f hf
        rw [Option.map_eq_none'] at h0
        rw [h0] at hs
        cases hs
    | cons e rest =>
      have hred : (if ((e :: rest).isEmpty) = true then
          (none : Option (List (String × String))) else some (e :: rest)) =
          some (e :: rest) := rfl
      rw [hred]
      simp only [Option.isSome_some, true_iff]
      have he : e ∈ cleanup_fields.filterMap
          (fun g => (alookup w.extra g).map (fun y => (g, y))) := by
        rw [hM]; exact List.mem_cons_self _ _
      obtain ⟨g, hg, hge⟩ := List.mem_filterMap.mp he
      refine ⟨g, hg, ?_⟩
      cases hl : alookup w.extra g with
      | none => rw [hl] at hge; cases hge
      | some y => rfl

/-- C9 (witness): a record carrying a `source` field has it relocated into
the nested metadata object with its value intact. -/
theorem claim_C9_witness :
    ∃ m, (cleanup
      { id := "x", domains := ["x.com"], name := "x", company := "Unknown",
        category := "other", gdpr_compliant := false, risk_score := 5,
        tier := some "standard", extra := [("source", "ddg")],
        import_metadata := none }).import_metadata = some m ∧
      alookup m "source" = some "ddg" :=
  claim_C9.2.1
    { id := "x", domains := ["x.com"], name := "x", company := "Unknown",
      category := "other", gdpr_compliant := false, risk_score := 5,
      tier := some "standard", extra := [("source", "ddg")],
      import_metadata := none }
    "source" (by decide) "ddg" (by decide)

/-! ### Step-characterization lemmas -/

theorem ddgStep_enrich {st : MergeState} {v0 : RawVendor} {pid : String}
    {existing : Vendor}
    (hpm : findPremiumMatch st (normalize_vendor (markStd v0)).domains = some pid)
    (hpne : pid ≠ "")
    (hex : alookup st.vendors_by_id pid = some existing) :
    ddgStep st v0 = enrich st pid existing (normalize_vendor (markStd v0)).domains := by
  unfold ddgStep ddgCore
  rw [hpm]
  dsimp only
  rw [if_neg hpne, hex]

theorem ddgStep_merge {st : MergeState} {v0 : RawVendor} {mid : String}
    {existing : Vendor}
    (hpm : findPremiumMatch st (normalize_vendor (markStd v0)).domains = none)
    (hff : findFirstMatch st (normalize_vendor (markStd v0)).domains = some mid)
    (hmne : mid ≠ "")
    (hex : alookup st.vendors_by_id mid = some existing) :
    ddgStep st v0 = mergeAll st mid existing (normalize_vendor (markStd v0)).domains := by
  unfold ddgStep ddgCore ddgGeneral
  rw [hpm]
  dsimp only
  rw [hff]
  dsimp only
  rw [if_neg hmne, hex]

theorem ddgStep_insert {st : MergeState} {v0 : RawVendor}
    (hpm : findPremiumMatch st (normalize_vendor (markStd v0)).domains = none)
    (hff : findFirstMatch st (normalize_vendor (markStd v0)).domains = none) :
    ddgStep st v0 = insertNew "-ddg" st (normalize_vendor (markStd v0)) := by
  unfold ddgStep ddgCore ddgGeneral
  rw [hpm]
  dsimp only
  rw [hff]

theorem dcStep_enrich {st : MergeState} {v0 : RawVendor} {mid : String}
    {existing : Vendor}
    (hff : findFirstMatch st (normalize_vendor (markStd v0)).domains = some mid)
    (hmne : mid ≠ "")
    (hex : alookup st.vendors_by_id mid = some existing) :
    dcStep st v0 = enrich st mid existing (normalize_vendor (markStd v0)).domains := by
  unfold dcStep dcCore
  rw [hff]
  dsimp only
  rw [if_neg hmne, hex]

theorem dcStep_insert {st : MergeState} {v0 : RawVendor}
    (hff : findFirstMatch st (normalize_vendor (markStd v0)).domains = none) :
    dcStep st v0 = insertNew "-dc" st (normalize_vendor (markStd v0)) := by
  unfold dcStep dcCore
  rw [hff]

theorem insertedId_of_fresh {st : MergeState} {v : Vendor} (sfx : String)
    (h : alookup st.vendors_by_id v.id = none) : insertedId sfx st v = v.id := by
  unfold insertedId
  rw [h]
  rfl

theorem insertedId_of_collision {st : MergeState} {v : Vendor} (sfx : String)
    (h : (alookup st.vendors_by_id v.id).isSome) :
    insertedId sfx st v = v.id ++ sfx := by
  unfold insertedId
  rw [if_pos h]

theorem enrich_keys {st : MergeState} {pid : String} {existing : Vendor}
    (doms : List String) (hex : alookup st.vendors_by_id pid = some existing) :
    (enrich st pid existing doms).vendors_by_id.map Prod.fst =
      st.vendors_by_id.map Prod.fst := by
  unfold enrich
  split
  · rfl
  · exact keys_aset_of_isSome _ (by rw [hex]; rfl)

theorem enrich_lookup_self {st : MergeState} {pid : String} {existing : Vendor}
    (doms : List String) (hex : alookup st.vendors_by_id pid = some existing) :
    ∃ e2, alookup (enrich st pid existing doms).vendors_by_id pid = some e2 ∧
      e2.id = existing.id ∧ e2.name = existing.name ∧
      e2.company = existing.company ∧ e2.category = existing.category ∧
      e2.risk_score = existing.risk_score ∧
      e2.gdpr_compliant = existing.gdpr_compliant ∧ e2.tier = existing.tier ∧
      e2.extra = existing.extra ∧ e2.import_metadata = existing.import_metadata ∧
      (∀ x ∈ existing.domains, x ∈ e2.domains) ∧
      ∀ x ∈ e2.domains, x ∈ existing.domains ∨ x ∈ doms := by
  unfold enrich
  split
  · exact ⟨existing, hex, rfl, rfl, rfl, rfl, rfl, rfl, rfl, rfl, rfl,
      fun x hx => hx, fun x hx => Or.inl hx⟩
  · refine ⟨_, alookup_aset_self _ _ _, rfl, rfl, rfl, rfl, rfl, rfl, rfl, rfl,
      rfl, ?_, ?_⟩
    · intro x hx
      exact mem_sortedSet.mpr (List.mem_append.mpr (Or.inl hx))
    · intro x hx
      rcases List.mem_append.mp (mem_sortedSet.mp hx) with h | h
      · exact Or.inl h
      · exact Or.inr (List.mem_of_mem_filter h)

/-- C7: `normalize_vendor` fills every missing field with its documented
default (`id="unknown"`, `domains=[]`, `name=id`, `company="Unknown"`,
`category="other"`, `gdpr_compliant=false`, `risk_score=5`), clamps
`risk_score` into `[1,10]` via min/max (so `-3` becomes `1` and `47`
becomes `10`) instead of rejecting it, replaces any category outside the
allowed set with `"other"`, lowercases every domain while dropping falsy
(empty) entries — and, being a total Lean function, never fails. -/
theorem claim_C7 (v : RawVendor) :
    (v.id = none → (normalize_vendor v).id = "unknown") ∧
      (v.domains = none → (normalize_vendor v).domains = []) ∧
      (v.name = none → (normalize_vendor v).name = (normalize_vendor v).id) ∧
      (v.company = none → (normalize_vendor v).company = "Unknown") ∧
      (v.category = none → (normalize_vendor v).category = "other") ∧
      (v.gdpr_compliant = none → (normalize_vendor v).gdpr_compliant = false) ∧
      (v.risk_score = none → (normalize_vendor v).risk_score = 5) ∧
      (normalize_vendor v).risk_score = max 1 (min 10 (v.risk_score.getD 5)) ∧
      (v.risk_score = some (-3) → (normalize_vendor v).risk_score = 1) ∧
      (v.risk_score = some 47 → (normalize_vendor v).risk_score = 10) ∧
      ((v.category.getD "other") ∉ VALID_CATEGORIES →
        (normalize_vendor v).category = "other") ∧
      ∀ dm, dm ∈ (normalize_vendor v).domains ↔
        ∃ d0 ∈ v.domains.getD [], d0 ≠ "" ∧ dm = strLower d0 := by
  refine ⟨?_, ?_, ?_, ?_, ?_, ?_, ?_, ?_, ?_, ?_, ?_, ?_⟩
  · intro h; rw [normalize_id, h]; rfl
  · intro h; rw [normalize_domains, h]; rfl
  · intro h; rw [normalize_name, normalize_id, h]; rfl
  · intro h; rw [normalize_company, h]; rfl
  · intro h
    rw [normalize_category, h]
    rfl
  · intro h; rw [normalize_gdpr, h]; rfl
  · intro h; rw [normalize_risk, h]; rfl
  · exact normalize_risk v
  · intro h; rw [normalize_risk, h]; rfl
  · intro h; rw [normalize_risk, h]; rfl
  · intro h
    rw [normalize_category, if_neg h]
  · intro dm
    rw [normalize_domains]
    constructor
    · intro h
      obtain ⟨d0, hd0, rfl⟩ := List.mem_map.mp h
      have hm := List.mem_filter.mp hd0
      exact ⟨d0, hm.1, by simpa using hm.2, rfl⟩
    · rintro ⟨d0, hd0, hne, rfl⟩
      exact List.mem_map.mpr ⟨d0, List.mem_filter.mpr ⟨hd0, by simpa using hne⟩, rfl⟩

/-- C7 (witness): the defaults on an all-absent record and the clamp at 47. -/
theorem claim_C7_witness :
    (normalize_vendor
      { id := none, domains := none, name := none, company := none,
        category := none, gdpr_compliant := none, risk_score := none,
        tier := none, extra := [], import_metadata := none }).id = "unknown" ∧
      (normalize_vendor { rv "x" ["B.com"] with risk_score := some 47 }).risk_score
        = 10 := by
  have h1 := claim_C7
    { id := none, domains := none, name := none, company := none,
      category := none, gdpr_compliant := none, risk_score := none,
      tier := none, extra := [], import_metadata := none }
  have h2 := claim_C7 { rv "x" ["B.com"] with risk_score := some 47 }
  obtain ⟨hid, -, -, -, -, -, -, -, -, -, -, -⟩ := h1
  obtain ⟨-, -, -, -, -, -, -, -, -, h47, -, -⟩ := h2
  exact ⟨hid rfl, h47 rfl⟩

/-- C2 (counterexample): the claim that the premium-collision check runs
before the general-collision check in every subsequent-source pass fails
for the Disconnect pass, which has no premium-collision check at all: a
Disconnect candidate whose domains are `["s.com", "p.com"]` — where
`p.com` is owned by the premium record `p` — merges into the standard
record `s` (the owner of its first domain) and the premium record is not
enriched. -/
theorem claim_C2_counterexample :
    (∃ v ∈ merge_vendors [rv "p" ["p.com"]] [rv "s" ["s.com"]]
        [rv "v" ["s.com", "p.com"]],
      v.id = "s" ∧ v.domains = ["p.com", "s.com"] ∧ v.tier = some "standard") ∧
      ∀ v ∈ merge_vendors [rv "p" ["p.com"]] [rv "s" ["s.com"]]
        [rv "v" ["s.com", "p.com"]],
        v.id = "p" → v.domains = ["p.com"] := by decide

/-- C2 (amended): in the DuckDuckGo pass the premium-collision check does
run before the general-collision check: whenever any domain of the
candidate is owned by a premium record (`findPremiumMatch` succeeds, even
if a non-premium owner matches an earlier domain), the step is exactly an
enrichment of that premium record — no new record is created, the premium
record's descriptive fields are untouched and only its domain set grows by
candidate domains.  The premium owner's id must be non-empty: Python's
`if matched_premium_id:` is a truthiness test, so an empty-string match is
falsy and falls through.  The Disconnect pass has no premium-collision
check at all. -/
theorem claim_C2 (st : MergeState) (v0 : RawVendor) (pid : String)
    (existing : Vendor)
    (hpm : findPremiumMatch st (normalize_vendor (markStd v0)).domains = some pid)
    (hpne : pid ≠ "")
    (hex : alookup st.vendors_by_id pid = some existing) :
    ddgStep st v0 = enrich st pid existing (normalize_vendor (markStd v0)).domains ∧
      existing.tier = some "premium" ∧
      (ddgStep st v0).vendors_by_id.map Prod.fst =
        st.vendors_by_id.map Prod.fst ∧
      ∃ e2, alookup (ddgStep st v0).vendors_by_id pid = some e2 ∧
        e2.name = existing.name ∧ e2.company = existing.company ∧
        e2.category = existing.category ∧ e2.risk_score = existing.risk_score ∧
        e2.gdpr_compliant = existing.gdpr_compliant ∧ e2.tier = existing.tier ∧
        (∀ x ∈ existing.domains, x ∈ e2.domains) ∧
        ∀ x ∈ e2.domains,
          x ∈ existing.domains ∨ x ∈ (normalize_vendor (markStd v0)).domains := by
  have hstep := ddgStep_enrich hpm hpne hex
  refine ⟨hstep, ?_, ?_, ?_⟩
  · obtain ⟨-, ev, hv, ht⟩ := findPremiumMatch_some hpm
    rw [hex] at hv
    injection hv with hv
    rw [hv]
    exact ht
  · rw [hstep]
    exact enrich_keys _ hex
  · rw [hstep]
    obtain ⟨e2, hl, -, hn, hc, hcat, hr, hg, ht, -, -, hsup, hsub⟩ :=
      enrich_lookup_self (normalize_vendor (markStd v0)).domains hex
    exact ⟨e2, hl, hn, hc, hcat, hr, hg, ht, hsup, hsub⟩

/-- A concrete one-premium-record merge state used by witnesses. -/
def pVend : Vendor :=
  { id := "p", domains := ["p.com"], name := "p", company := "Unknown",
    category := "other", gdpr_compliant := false, risk_score := 5,
    tier := some "premium", extra := [], import_metadata := none }

/-- The merge state holding exactly `pVend`. -/
def stP : MergeState :=
  { vendors_by_id := [("p", pVend)], domain_to_id := [("p.com", "p")] }

/-- C2 (witness): a DuckDuckGo candidate sharing `p.com` with the premium
record is processed as an enrichment of that record. -/
theorem claim_C2_witness :
    ddgStep stP (rv "q" ["p.com", "q.com"]) =
      enrich stP "p" pVend
        (normalize_vendor (markStd (rv "q" ["p.com", "q.com"]))).domains :=
  (claim_C2 stP (rv "q" ["p.com", "q.com"]) "p" pVend (by decide) (by decide)
    (by decide)).1

/-- C6 (counterexample): the claim that after normalization every
candidate's domain iteration order is sorted ascending is false:
`normalize_vendor` preserves the stored order (`["b.com", "a.com"]` stays
unsorted), and the merge tie-break follows that stored order — the
candidate `v` below attaches to `r2` (the owner of its first listed domain
`b.com`), not to `r1` (the owner of the ascending-first domain `a.com`). -/
theorem claim_C6_counterexample :
    (normalize_vendor (rv "v" ["b.com", "a.com"])).domains = ["b.com", "a.com"] ∧
      (∃ w ∈ merge_vendors []
          [rv "r1" ["a.com"], rv "r2" ["b.com"], rv "v" ["b.com", "a.com"]] [],
        w.id = "r2" ∧ w.domains = ["a.com", "b.com"]) ∧
      ∀ w ∈ merge_vendors []
          [rv "r1" ["a.com"], rv "r2" ["b.com"], rv "v" ["b.com", "a.com"]] [],
        w.id = "r1" → w.domains = ["a.com"] := by decide

/-- C6 (amended): the collision tie-break is first-domain-match-wins over
the candidate's stored domain order, which normalization preserves (it
lowercases and filters but does not sort): if every domain before `dom` in
the candidate's normalized domain list is unowned and `dom` is owned by
`mid`, the candidate merges into `mid` — provided `mid` is non-empty: an
empty-string owner id is falsy in Python's `if matched_id:` and falls
through to insertion.  Merged domain sets are stored sorted ascending, and
the result is reproducible since the engine is a pure function of the
input lists. -/
theorem claim_C6 (st : MergeState) (v0 : RawVendor) (pre post : List String)
    (dom mid : String) (existing : Vendor)
    (hpm : findPremiumMatch st (normalize_vendor (markStd v0)).domains = none)
    (hsplit : (normalize_vendor (markStd v0)).domains = pre ++ dom :: post)
    (hpre : ∀ x ∈ pre, alookup st.domain_to_id x = none)
    (hdom : alookup st.domain_to_id dom = some mid)
    (hmne : mid ≠ "")
    (hex : alookup st.vendors_by_id mid = some existing) :
    findFirstMatch st (normalize_vendor (markStd v0)).domains = some mid ∧
      ddgStep st v0 =
        mergeAll st mid existing (normalize_vendor (markStd v0)).domains ∧
      (normalize_vendor (markStd v0)).domains =
        (((markStd v0).domains.getD []).filter (fun s => s ≠ "")).map strLower := by
  have hff : findFirstMatch st (normalize_vendor (markStd v0)).domains = some mid := by
    rw [hsplit]
    exact findFirstMatch_first st pre post hpre hdom
  exact ⟨hff, ddgStep_merge hpm hff hmne hex, normalize_domains _⟩

/-- A standard-tier record owning one domain, used by the C6 witness. -/
def stdVend (i dom : String) : Vendor :=
  { id := i, domains := [dom], name := i, company := "Unknown",
    category := "other", gdpr_compliant := false, risk_score := 5,
    tier := some "standard", extra := [], import_metadata := none }

/-- A two-standard-record merge state used by the C6 witness. -/
def stR : MergeState :=
  { vendors_by_id := [("r1", stdVend "r1" "a.com"), ("r2", stdVend "r2" "b.com")]
    domain_to_id := [("a.com", "r1"), ("b.com", "r2")] }

/-- C6 (witness): the candidate listing `b.com` before `a.com` merges into
the owner of `b.com`. -/
theorem claim_C6_witness :
    findFirstMatch stR
      (normalize_vendor (markStd (rv "v" ["b.com", "a.com"]))).domains =
      some "r2" :=
  (claim_C6 stR (rv "v" ["b.com", "a.com"]) [] ["a.com"] "b.com" "r2"
    (stdVend "r2" "b.com")
    (by decide) (by decide) (by decide) (by decide) (by decide) (by decide)).1

/-- C10 (counterexample): the claim that a secondary record carrying
`tier == "premium"` captures later domain-sharing candidates through the
enrichment path fails when its id is the empty string: Python's
`if matched_premium_id:` is falsy for `""`, so the follow-up candidate `w`
below is inserted as a new record instead of enriching the self-premium
record — the output has two records, both holding `a.com`. -/
theorem claim_C10_counterexample :
    (merge_vendors []
      [{ rv "" ["a.com"] with tier := some "premium" },
       rv "w" ["a.com", "w.com"]] []).map (fun v => (v.id, v.domains)) =
      [("", ["a.com"]), ("w", ["a.com", "w.com"])] := by decide

/-- C10 (amended): a DuckDuckGo input record already carrying
`tier == "premium"` keeps that tier (`setdefault` never overwrites), and —
provided its normalized id and all existing record ids are non-empty (an
empty-string owner id is falsy in Python's truthiness guards) — once
inserted, a later DuckDuckGo candidate sharing one of its domains is
routed through the premium-collision (enrichment) path exactly as for a
curated premium record: `findPremiumMatch` succeeds with a premium owner
and the follow-up step creates no new record. -/
theorem claim_C10 (st : MergeState) (v0 w0 : RawVendor)
    (htier : v0.tier = some "premium")
    (hidne : (normalize_vendor (markStd v0)).id ≠ "")
    (hkeys : ∀ k ∈ st.vendors_by_id.map Prod.fst, k ≠ "")
    (hpm : findPremiumMatch st (normalize_vendor (markStd v0)).domains = none)
    (hff : findFirstMatch st (normalize_vendor (markStd v0)).domains = none)
    (hfresh : alookup st.vendors_by_id (normalize_vendor (markStd v0)).id = none)
    (dm : String)
    (hdw : dm ∈ (normalize_vendor (markStd w0)).domains)
    (hdv : dm ∈ (normalize_vendor (markStd v0)).domains) :
    (∃ v1, alookup (ddgStep st v0).vendors_by_id
        (normalize_vendor (markStd v0)).id = some v1 ∧
        v1.tier = some "premium") ∧
      (∃ pid ex,
        findPremiumMatch (ddgStep st v0)
          (normalize_vendor (markStd w0)).domains = some pid ∧
        alookup (ddgStep st v0).vendors_by_id pid = some ex ∧
        ex.tier = some "premium") ∧
      (ddgStep (ddgStep st v0) w0).vendors_by_id.map Prod.fst =
        (ddgStep st v0).vendors_by_id.map Prod.fst := by
  have hstep := ddgStep_insert hpm hff
  have hiid := insertedId_of_fresh "-ddg" hfresh
  have htv : (normalize_vendor (markStd v0)).tier = some "premium" := by
    rw [normalize_tier]
    unfold markStd
    rw [htier]
    rfl
  have hl1 : alookup (ddgStep st v0).vendors_by_id
      (normalize_vendor (markStd v0)).id =
      some { normalize_vendor (markStd v0) with
             id := insertedId "-ddg" st (normalize_vendor (markStd v0)) } := by
    rw [hstep]
    unfold insertNew
    dsimp only
    rw [hiid]
    exact alookup_aset_self _ _ _
  have hown : alookup (ddgStep st v0).domain_to_id dm =
      some (normalize_vendor (markStd v0)).id := by
    rw [hstep]
    unfold insertNew
    dsimp only
    rw [alookup_regDomains, if_pos hdv, hiid]
  have hkeys1 : (ddgStep st v0).vendors_by_id.map Prod.fst =
      st.vendors_by_id.map Prod.fst ++ [(normalize_vendor (markStd v0)).id] := by
    rw [hstep]
    unfold insertNew
    dsimp only
    rw [hiid]
    exact keys_aset_of_none _ hfresh
  have hsome := findPremiumMatch_isSome hdw hown hl1 htv
  refine ⟨⟨_, hl1, htv⟩, ?_⟩
  cases hfm : findPremiumMatch (ddgStep st v0)
      (normalize_vendor (markStd w0)).domains with
  | none => rw [hfm] at hsome; cases hsome
  | some pid =>
    obtain ⟨-, ex, hexl, hext⟩ := findPremiumMatch_some hfm
    have hpidkey : pid ∈ (ddgStep st v0).vendors_by_id.map Prod.fst :=
      List.mem_map.mpr ⟨(pid, ex), alookup_mem hexl, rfl⟩
    have hpne : pid ≠ "" := by
      rw [hkeys1] at hpidkey
      rcases List.mem_append.mp hpidkey with h | h
      · exact hkeys pid h
      · rw [List.mem_singleton] at h
        rw [h]
        exact hidne
    refine ⟨⟨pid, ex, rfl, hexl, hext⟩, ?_⟩
    rw [ddgStep_enrich hfm hpne hexl]
    exact enrich_keys _ hexl

/-- C10 (witness): a DuckDuckGo record self-assigned `tier = "premium"` is
inserted with its tier intact and captures the follow-up candidate that
shares its domain. -/
theorem claim_C10_witness :
    ∃ v1, alookup
        (ddgStep { vendors_by_id := [], domain_to_id := [] }
          { rv "v" ["v.com"] with tier := some "premium" }).vendors_by_id
        (normalize_vendor (markStd
          { rv "v" ["v.com"] with tier := some "premium" })).id = some v1 ∧
      v1.tier = some "premium" :=
  (claim_C10 { vendors_by_id := [], domain_to_id := [] }
    { rv "v" ["v.com"] with tier := some "premium" }
    (rv "w" ["v.com", "w.com"]) rfl (by decide) (by decide) (by decide)
    (by decide) (by decide) "v.com" (by decide) (by decide)).1

/-- C4 (counterexample): the claim that a renamed candidate never loses or
overwrites a record fails: the rename appends the suffix without checking
that the suffixed id is free, so the DuckDuckGo candidate `foo` — renamed
to `foo-ddg` — overwrites the premium record already stored under
`foo-ddg`, whose domain `b.com` disappears from the output entirely. -/
theorem claim_C4_counterexample :
    (merge_vendors [rv "foo" ["a.com"], rv "foo-ddg" ["b.com"]]
        [rv "foo" ["c.com"]] []).length = 2 ∧
      ∀ v ∈ merge_vendors [rv "foo" ["a.com"], rv "foo-ddg" ["b.com"]]
          [rv "foo" ["c.com"]] [],
        "b.com" ∉ v.domains := by decide

/-- C4 (amended): the id values of the output of `merge_vendors` are
always pairwise distinct; and a non-colliding-domain candidate whose id is
already taken is deterministically renamed with the source-tag suffix
(`-ddg` / `-dc`) and appended — losing no record — provided the suffixed
id is itself not already taken (otherwise the rename silently overwrites
that record). -/
theorem claim_C4 :
    (∀ p d dc : List RawVendor,
        ((merge_vendors p d dc).map (fun v => v.id)).Nodup) ∧
      (∀ (st : MergeState) (v0 : RawVendor),
        findPremiumMatch st (normalize_vendor (markStd v0)).domains = none →
        findFirstMatch st (normalize_vendor (markStd v0)).domains = none →
        (alookup st.vendors_by_id (normalize_vendor (markStd v0)).id).isSome →
        alookup st.vendors_by_id
          ((normalize_vendor (markStd v0)).id ++ "-ddg") = none →
        (ddgStep st v0).vendors_by_id = st.vendors_by_id ++
          [((normalize_vendor (markStd v0)).id ++ "-ddg",
            { normalize_vendor (markStd v0) with
              id := (normalize_vendor (markStd v0)).id ++ "-ddg" })]) ∧
      ∀ (st : MergeState) (v0 : RawVendor),
        findFirstMatch st (normalize_vendor (markStd v0)).domains = none →
        (alookup st.vendors_by_id (normalize_vendor (markStd v0)).id).isSome →
        alookup st.vendors_by_id
          ((normalize_vendor (markStd v0)).id ++ "-dc") = none →
        (dcStep st v0).vendors_by_id = st.vendors_by_id ++
          [((normalize_vendor (markStd v0)).id ++ "-dc",
            { normalize_vendor (markStd v0) with
              id := (normalize_vendor (markStd v0)).id ++ "-dc" })] := by
  refine ⟨merge_ids_nodup, ?_, ?_⟩
  · intro st v0 hpm hff hcol hfresh
    rw [ddgStep_insert hpm hff]
    unfold insertNew
    dsimp only
    rw [insertedId_of_collision "-ddg" hcol]
    exact aset_of_none _ hfresh
  · intro st v0 hff hcol hfresh
    rw [dcStep_insert hff]
    unfold insertNew
    dsimp only
    rw [insertedId_of_collision "-dc" hcol]
    exact aset_of_none _ hfresh

/-- C4 (witness): a DuckDuckGo candidate with the taken id `p` and a fresh
domain is appended under `p-ddg` with the premium record intact. -/
theorem claim_C4_witness :
    (ddgStep stP (rv "p" ["q.com"])).vendors_by_id = stP.vendors_by_id ++
      [((normalize_vendor (markStd (rv "p" ["q.com"]))).id ++ "-ddg",
        { normalize_vendor (markStd (rv "p" ["q.com"])) with
          id := (normalize_vendor (markStd (rv "p" ["q.com"]))).id ++ "-ddg" })] :=
  claim_C4.2.1 stP (rv "p" ["q.com"]) (by decide) (by decide) (by decide)
    (by decide)

/-! ### Premium preservation (C3) -/

/-- The record stored under `nr.id` carries `nr`'s descriptive fields and
at least `nr`'s domains. -/
def keepsPremium (nr : Vendor) (st : MergeState) : Prop :=
  ∃ v, alookup st.vendors_by_id nr.id = some v ∧ v.id = nr.id ∧
    v.name = nr.name ∧ v.company = nr.company ∧ v.category = nr.category ∧
    v.risk_score = nr.risk_score ∧ v.gdpr_compliant = nr.gdpr_compliant ∧
    ∀ dom ∈ nr.domains, dom ∈ v.domains

theorem foldl_preserve_of {α : Type} (P : MergeState → Prop)
    (step : MergeState → α → MergeState) :
    ∀ (l : List α), (∀ st c, c ∈ l → P st → P (step st c)) →
      ∀ st, P st → P (l.foldl step st) := by
  intro l
  induction l with
  | nil => intro _ st h; exact h
  | cons c rest ih =>
    intro h st hP
    exact ih (fun st' c' hc' => h st' c' (List.mem_cons_of_mem _ hc'))
      _ (h st c (List.mem_cons_self _ _) hP)

theorem keeps_enrich {nr : Vendor} {st : MergeState} {pid : String}
    {existing : Vendor} {doms : List String} (hK : keepsPremium nr st)
    (hex : alookup st.vendors_by_id pid = some existing) :
    keepsPremium nr (enrich st pid existing doms) := by
  obtain ⟨v, hl, hid, hn, hc, hcat, hr, hg, hsub⟩ := hK
  by_cases hpid : pid = nr.id
  · subst hpid
    rw [hl] at hex
    injection hex with hex
    subst hex
    obtain ⟨e2, hl2, hid2, hn2, hc2, hcat2, hr2, hg2, -, -, -, hsup, -⟩ :=
      enrich_lookup_self doms (hl)
    exact ⟨e2, hl2, hid2.trans hid, hn2.trans hn, hc2.trans hc,
      hcat2.trans hcat, hr2.trans hr, hg2.trans hg,
      fun dom hd => hsup dom (hsub dom hd)⟩
  · unfold enrich
    split
    · exact ⟨v, hl, hid, hn, hc, hcat, hr, hg, hsub⟩
    · refine ⟨v, ?_, hid, hn, hc, hcat, hr, hg, hsub⟩
      dsimp only
      rw [alookup_aset_ne _ _ (fun e => hpid e.symm)]
      exact hl

theorem keeps_mergeAll {nr : Vendor} {st : MergeState} {mid : String}
    {existing : Vendor} {doms : List String} (hK : keepsPremium nr st)
    (hex : alookup st.vendors_by_id mid = some existing) :
    keepsPremium nr (mergeAll st mid existing doms) := by
  obtain ⟨v, hl, hid, hn, hc, hcat, hr, hg, hsub⟩ := hK
  unfold mergeAll
  by_cases hmid : mid = nr.id
  · subst hmid
    rw [hl] at hex
    injection hex with hex
    subst hex
    refine ⟨{ v with domains := sortedSet (v.domains ++ doms) }, ?_, hid, hn, hc,
      hcat, hr, hg, ?_⟩
    · dsimp only
      rw [hid]
      exact alookup_aset_self _ _ _
    · intro dom hd
      exact mem_sortedSet.mpr (List.mem_append.mpr (Or.inl (hsub dom hd)))
  · refine ⟨v, ?_, hid, hn, hc, hcat, hr, hg, hsub⟩
    dsimp only
    rw [alookup_aset_ne _ _ (fun e => hmid e.symm)]
    exact hl

theorem keeps_insertNew {nr : Vendor} {st : MergeState} {v : Vendor}
    {sfx : String} (hK : keepsPremium nr st)
    (hne : insertedId sfx st v ≠ nr.id) :
    keepsPremium nr (insertNew sfx st v) := by
  obtain ⟨w, hl, props⟩ := hK
  refine ⟨w, ?_, props⟩
  unfold insertNew
  dsimp only
  rw [alookup_aset_ne _ _ (fun e => hne e.symm)]
  exact hl

theorem keeps_premiumCore {nr : Vendor} {st : MergeState} {v : Vendor}
    (hK : keepsPremium nr st) (hne : v.id ≠ nr.id) :
    keepsPremium nr (premiumCore st v) := by
  obtain ⟨w, hl, props⟩ := hK
  refine ⟨w, ?_, props⟩
  unfold premiumCore
  dsimp only
  rw [alookup_aset_ne _ _ (fun e => hne e.symm)]
  exact hl

theorem avoidsId_spec {sfx cid : String} {c : RawVendor}
    (h : avoidsId sfx cid c = true) :
    (normalize_vendor (markStd c)).id ≠ cid ∧
      (normalize_vendor (markStd c)).id ++ sfx ≠ cid := by
  unfold avoidsId at h
  rw [Bool.and_eq_true, decide_eq_true_eq, decide_eq_true_eq] at h
  exact h

theorem keeps_insertedId_ne {nr : Vendor} {st : MergeState} {sfx : String}
    {c : RawVendor} (hav : avoidsId sfx nr.id c = true) :
    insertedId sfx st (normalize_vendor (markStd c)) ≠ nr.id := by
  obtain ⟨h1, h2⟩ := avoidsId_spec hav
  by_cases hs : (alookup st.vendors_by_id (normalize_vendor (markStd c)).id).isSome
  · rw [insertedId_of_collision sfx hs]
    exact h2
  · rw [insertedId_of_fresh sfx (Option.not_isSome_iff_eq_none.mp hs)]
    exact h1

theorem keeps_ddgGeneral {nr : Vendor} {st : MergeState} {c : RawVendor}
    (hK : keepsPremium nr st) (hav : avoidsId "-ddg" nr.id c = true) :
    keepsPremium nr (ddgGeneral st (normalize_vendor (markStd c))) := by
  unfold ddgGeneral
  cases hff : findFirstMatch st (normalize_vendor (markStd c)).domains with
  | some mid =>
    dsimp only
    by_cases hmid : mid = ""
    · rw [if_pos hmid]
      exact keeps_insertNew hK (keeps_insertedId_ne hav)
    · rw [if_neg hmid]
      cases hex : alookup st.vendors_by_id mid with
      | some existing => exact keeps_mergeAll hK hex
      | none => exact hK
  | none => exact keeps_insertNew hK (keeps_insertedId_ne hav)

theorem keeps_ddgStep {nr : Vendor} {st : MergeState} {c : RawVendor}
    (hK : keepsPremium nr st) (hav : avoidsId "-ddg" nr.id c = true) :
    keepsPremium nr (ddgStep st c) := by
  unfold ddgStep ddgCore
  cases hpm : findPremiumMatch st (normalize_vendor (markStd c)).domains with
  | some pid =>
    dsimp only
    by_cases hpid : pid = ""
    · rw [if_pos hpid]
      exact keeps_ddgGeneral hK hav
    · rw [if_neg hpid]
      cases hex : alookup st.vendors_by_id pid with
      | some existing => exact keeps_enrich hK hex
      | none => exact hK
  | none => exact keeps_ddgGeneral hK hav

theorem keeps_dcStep {nr : Vendor} {st : MergeState} {c : RawVendor}
    (hK : keepsPremium nr st) (hav : avoidsId "-dc" nr.id c = true) :
    keepsPremium nr (dcStep st c) := by
  unfold dcStep dcCore
  cases hff : findFirstMatch st (normalize_vendor (markStd c)).domains with
  | some mid =>
    dsimp only
    by_cases hmid : mid = ""
    · rw [if_pos hmid]
      exact keeps_insertNew hK (keeps_insertedId_ne hav)
    · rw [if_neg hmid]
      cases hex : alookup st.vendors_by_id mid with
      | some existing => exact keeps_enrich hK hex
      | none => exact hK
  | none => exact keeps_insertNew hK (keeps_insertedId_ne hav)

/-- C3 (counterexample): the claim that a premium record's descriptive
fields reach the output unchanged fails for out-of-range risk scores: the
premium record with `risk_score = 47` is normalized (clamped to 10), so
the only output record — the one with its id — does not carry its original
value. -/
theorem claim_C3_counterexample :
    (merge_vendors [{ rv "a" ["a.com"] with risk_score := some 47 }] [] []).map
      (fun v => (v.id, v.risk_score)) = [("a", 10)] := by decide

/-- C3 (amended): for every record `r` of the premium input list —
provided the normalized premium ids are pairwise distinct and no secondary
candidate is stored (directly or after its suffix rename) under `r`'s id —
the output contains a record with `r`'s normalized id whose descriptive
fields (name, company, category, risk score, GDPR flag) equal those of the
normalized `r`, and whose domain set contains all of the normalized `r`'s
domains: premium records are changed only by normalization and domain-set
growth. -/
theorem claim_C3 (p d dc : List RawVendor) (r : RawVendor) (hr : r ∈ p)
    (hnd : (p.map (fun q => (normalize_vendor (markPremium q)).id)).Nodup)
    (hdd : ∀ c ∈ d,
      avoidsId "-ddg" (normalize_vendor (markPremium r)).id c = true)
    (hdc : ∀ c ∈ dc,
      avoidsId "-dc" (normalize_vendor (markPremium r)).id c = true) :
    ∃ v ∈ merge_vendors p d dc,
      v.id = (normalize_vendor (markPremium r)).id ∧
      v.name = (normalize_vendor (markPremium r)).name ∧
      v.company = (normalize_vendor (markPremium r)).company ∧
      v.category = (normalize_vendor (markPremium r)).category ∧
      v.risk_score = (normalize_vendor (markPremium r)).risk_score ∧
      v.gdpr_compliant = (normalize_vendor (markPremium r)).gdpr_compliant ∧
      ∀ dom ∈ (normalize_vendor (markPremium r)).domains, dom ∈ v.domains := by
  obtain ⟨l1, l2, rfl⟩ := List.append_of_mem hr
  have hK1 : keepsPremium (normalize_vendor (markPremium r))
      ((l1 ++ r :: l2).foldl insertPremium
        { vendors_by_id := [], domain_to_id := [] }) := by
    rw [List.foldl_append, List.foldl_cons]
    have h0 : keepsPremium (normalize_vendor (markPremium r))
        (insertPremium (l1.foldl insertPremium
          { vendors_by_id := [], domain_to_id := [] }) r) := by
      unfold insertPremium premiumCore
      exact ⟨normalize_vendor (markPremium r),
        by dsimp only; exact alookup_aset_self _ _ _,
        rfl, rfl, rfl, rfl, rfl, rfl, fun dom hd => hd⟩
    refine foldl_preserve_of _ _ l2 ?_ _ h0
    intro st c hc hP
    have hne : (normalize_vendor (markPremium c)).id ≠
        (normalize_vendor (markPremium r)).id := by
      rw [List.map_append, List.map_cons] at hnd
      have h2 := (List.nodup_append.mp hnd).2.1
      rw [List.nodup_cons] at h2
      intro he
      exact h2.1 (he ▸ List.mem_map.mpr ⟨c, hc, rfl⟩)
    exact keeps_premiumCore hP hne
  have hK2 := foldl_preserve_of _ ddgStep d
    (fun st c hc hP => keeps_ddgStep hP (hdd c hc)) _ hK1
  have hK3 := foldl_preserve_of _ dcStep dc
    (fun st c hc hP => keeps_dcStep hP (hdc c hc)) _ hK2
  obtain ⟨v, hl, hid, hn, hc, hcat, hrk, hg, hsub⟩ := hK3
  refine ⟨cleanup v, ?_, ?_, ?_, ?_, ?_, ?_, ?_, ?_⟩
  · exact mem_merge_vendors.mpr ⟨(_, v), alookup_mem hl, rfl⟩
  · rw [cleanup_id]; exact hid
  · rw [cleanup_name]; exact hn
  · rw [cleanup_company]; exact hc
  · rw [cleanup_category]; exact hcat
  · rw [cleanup_risk]; exact hrk
  · rw [cleanup_gdpr]; exact hg
  · rw [cleanup_domains]; exact hsub

/-- C3 (witness): the premium record `a` survives a merge with one
DuckDuckGo record untouched. -/
theorem claim_C3_witness :
    ∃ v ∈ merge_vendors [rv "a" ["a.com"]] [rv "b" ["b.com"]] [],
      v.id = (normalize_vendor (markPremium (rv "a" ["a.com"]))).id ∧
      v.name = (normalize_vendor (markPremium (rv "a" ["a.com"]))).name ∧
      v.company = (normalize_vendor (markPremium (rv "a" ["a.com"]))).company ∧
      v.category = (normalize_vendor (markPremium (rv "a" ["a.com"]))).category ∧
      v.risk_score =
        (normalize_vendor (markPremium (rv "a" ["a.com"]))).risk_score ∧
      v.gdpr_compliant =
        (normalize_vendor (markPremium (rv "a" ["a.com"]))).gdpr_compliant ∧
      ∀ dom ∈ (normalize_vendor (markPremium (rv "a" ["a.com"]))).domains,
        dom ∈ v.domains :=
  claim_C3 [rv "a" ["a.com"]] [rv "b" ["b.com"]] [] (rv "a" ["a.com"])
    (by decide) (by decide) (by decide) (by decide)

/-! ### Re-merge (C5) -/

theorem filter_map_fix {l : List String} (h : ∀ x ∈ l, x ≠ "" ∧ strLower x = x) :
    (l.filter (fun d => d ≠ "")).map strLower = l := by
  induction l with
  | nil => rfl
  | cons x t ih =>
    have hx := h x (List.mem_cons_self _ _)
    rw [List.filter_cons_of_pos (by simpa using hx.1), List.map_cons, hx.2,
      ih (fun y hy => h y (List.mem_cons_of_mem _ hy))]

/-- Normalizing a good record read back from the output only promotes the
tier. -/
theorem normalize_toRaw {v : Vendor} (hg : goodVendor v) :
    normalize_vendor (markPremium (toRaw v)) = { v with tier := some "premium" } := by
  obtain ⟨h1, h2, h3, h4⟩ := hg
  cases v with
  | mk id domains name company category gdpr rs tier extra meta =>
    unfold toRaw markPremium normalize_vendor
    dsimp only [Option.getD_some]
    rw [if_pos h3, min_eq_right h2, max_eq_right h1, filter_map_fix h4]

/-- Feeding the merge output back as the premium input rebuilds exactly
the same table of records, each with tier promoted to premium. -/
theorem foldl_insertPremium_toRaw :
    ∀ (L : List Vendor) (st : MergeState),
      (∀ v ∈ L, goodVendor v) → (L.map (fun v => v.id)).Nodup →
      (∀ v ∈ L, alookup st.vendors_by_id v.id = none) →
      ((L.map toRaw).foldl insertPremium st).vendors_by_id =
        st.vendors_by_id ++
          L.map (fun v => (v.id, { v with tier := some "premium" })) := by
  intro L
  induction L with
  | nil => intro st _ _ _; simp
  | cons v t ih =>
    intro st hg hnd hfresh
    rw [List.map_cons, List.foldl_cons]
    have hv := normalize_toRaw (hg v (List.mem_cons_self _ _))
    have hstep : (insertPremium st (toRaw v)).vendors_by_id =
        st.vendors_by_id ++ [(v.id, { v with tier := some "premium" })] := by
      unfold insertPremium premiumCore
      dsimp only
      rw [hv]
      exact aset_of_none _ (hfresh v (List.mem_cons_self _ _))
    rw [List.map_cons] at hnd
    rw [List.nodup_cons] at hnd
    have hfresh2 : ∀ w ∈ t, alookup
        (insertPremium st (toRaw v)).vendors_by_id w.id = none := by
      intro w hw
      rw [hstep, alookup_append, hfresh w (List.mem_cons_of_mem _ hw)]
      have hne : v.id ≠ w.id := by
        intro he
        exact hnd.1 (he ▸ List.mem_map.mpr ⟨w, hw, rfl⟩)
      simp [alookup, hne]
    rw [ih (insertPremium st (toRaw v))
      (fun w hw => hg w (List.mem_cons_of_mem _ hw)) hnd.2 hfresh2, hstep,
      List.map_cons, List.append_assoc, List.singleton_append]

/-- Cleanup is the identity on a record whose top level carries none of
the `cleanup_fields`. -/
theorem cleanup_of_clean {v : Vendor}
    (h : ∀ f ∈ cleanup_fields, alookup v.extra f = none) : cleanup v = v := by
  have hmeta : cleanup_fields.filterMap
      (fun f => (alookup v.extra f).map (fun x => (f, x))) = [] :=
    List.filterMap_eq_nil_iff.mpr (fun f hf => by rw [h f hf]; rfl)
  have hextra : v.extra.filter
      (fun p => (cleanup_fields.contains p.1) = false) = v.extra := by
    rw [List.filter_eq_self]
    intro p hp
    cases hc : cleanup_fields.contains p.1 with
    | false => rfl
    | true =>
      have hmem : p.1 ∈ cleanup_fields := List.mem_of_elem_eq_true hc
      have h1 := h p.1 hmem
      have h2 := alookup_isSome_of_mem hp
      rw [h1] at h2
      cases h2
  unfold cleanup
  rw [hmeta, hextra]
  rfl

theorem sorted_map_setPremium {L : List Vendor}
    (h : List.Sorted (fun u v => strLe u.id v.id = true) L) :
    List.Sorted (fun u v => strLe u.id v.id = true)
      (L.map (fun v => { v with tier := some "premium" })) :=
  List.Pairwise.map _ (fun _ _ hab => hab) h

/-- C5 (counterexample): re-merging the engine's own output is not the
identity: the premium pass forces `tier = "premium"` on every record, so a
standard-tier record of the first output comes back premium. -/
theorem claim_C5_counterexample :
    merge_vendors ((merge_vendors [] [rv "x" ["x.com"]] []).map toRaw) [] [] ≠
      merge_vendors [] [rv "x" ["x.com"]] [] := by decide

/-- C5 (amended): re-merging the engine's own output (as the sole premium
input, with empty secondary inputs) reproduces the output record list
exactly, except that every record's tier is forced to `"premium"` — all
other fields, the record order, and the domain sets are unchanged. -/
theorem claim_C5 (p d dc : List RawVendor) :
    merge_vendors ((merge_vendors p d dc).map toRaw) [] [] =
      (merge_vendors p d dc).map (fun v => { v with tier := some "premium" }) := by
  have hms : (mergeState ((merge_vendors p d dc).map toRaw) [] []).vendors_by_id =
      [] ++ (merge_vendors p d dc).map
        (fun v => (v.id, { v with tier := some "premium" })) := by
    unfold mergeState
    dsimp only
    rw [List.foldl_nil, List.foldl_nil]
    exact foldl_insertPremium_toRaw (merge_vendors p d dc) _
      (fun v hv => merge_good hv) (merge_ids_nodup p d dc)
      (fun v hv => rfl)
  have hsorted : List.Sorted (fun u v => strLe u.id v.id = true)
      (merge_vendors p d dc) := by
    unfold merge_vendors
    exact sortById_sorted _
  conv_lhs => rw [merge_vendors, hms]
  rw [List.nil_append, List.map_map, List.map_map]
  have hclean : (merge_vendors p d dc).map
      ((cleanup ∘ fun q => q.2) ∘
        (fun v => (v.id, { v with tier := some "premium" }))) =
      (merge_vendors p d dc).map (fun v => { v with tier := some "premium" }) := by
    apply List.map_congr_left
    intro v hv
    simp only [Function.comp]
    exact cleanup_of_clean (fun f hf => merge_extra_clean hv hf)
  rw [hclean]
  exact sortById_of_sorted (sorted_map_setPremium hsorted)

end EtalonMerge
